/-
Verification of the trend-analysis core of the ssci-tourism-analyzer
repository against its natural-language specification.

The Python modules `modules/analyzer.py` and `modules/text_processor.py`
are shallowly embedded below.  Python dictionaries holding paper records
become a `PyPaper` structure whose optional fields distinguish a missing
key (`none`) from a present value; Python truthiness tests (`if x:`) are
modelled explicitly.  Python `Counter` aggregation over lists is
deterministic (insertion order is first-occurrence order), and is
modelled with `firstOccs` together with `List.count`.  Where the source
iterates over a Python `set` (whose iteration order is unspecified) the
embedding either proves the relevant property for every ordering or
fixes the canonical first-occurrence ordering, as noted at each
definition.  Python `float` arithmetic on the small ratios appearing in
the analyzer is modelled exactly over `ℚ`.  Python `list.sort`, a stable
sort, is modelled by a stable insertion sort `insSort`.
-/
import Mathlib

namespace SsciTourism

/-! ### Generic list helpers -/

/-- Tail of the first-occurrence deduplication: `seen` holds elements
already emitted. -/
def firstOccsAux {α : Type} [DecidableEq α] (seen : List α) : List α → List α
  | [] => []
  | x :: xs =>
    if x ∈ seen then firstOccsAux seen xs
    else x :: firstOccsAux (x :: seen) xs

/-- Keys of a Python dict or Counter in insertion order: the list of
distinct elements in order of first occurrence. -/
def firstOccs {α : Type} [DecidableEq α] (l : List α) : List α :=
  firstOccsAux [] l

/-- Insert an element into a list, before the first element `y` with
`le x y`.  Building block of the stable sort. -/
def insSorted {α : Type} (le : α → α → Bool) (x : α) : List α → List α
  | [] => [x]
  | y :: ys => if le x y then x :: y :: ys else y :: insSorted le x ys

/-- Stable insertion sort; models Python stable `list.sort` /
`sorted`. For elements that compare equal the original order is kept. -/
def insSort {α : Type} (le : α → α → Bool) : List α → List α
  | [] => []
  | x :: xs => insSorted le x (insSort le xs)

theorem mem_insSorted {α : Type} (le : α → α → Bool) (x a : α) :
    ∀ l : List α, a ∈ insSorted le x l ↔ a = x ∨ a ∈ l := by
  intro l
  induction l with
  | nil => simp [insSorted]
  | cons y ys ih =>
    cases hxy : le x y with
    | true => simp [insSorted, hxy]
    | false =>
      simp only [insSorted, hxy, Bool.false_eq_true, if_false, List.mem_cons, ih]
      tauto

theorem mem_insSort {α : Type} (le : α → α → Bool) (a : α) :
    ∀ l : List α, a ∈ insSort le l ↔ a ∈ l := by
  intro l
  induction l with
  | nil => simp [insSort]
  | cons x xs ih => simp [insSort, mem_insSorted, ih]

theorem length_insSorted {α : Type} (le : α → α → Bool) (x : α) :
    ∀ l : List α, (insSorted le x l).length = l.length + 1 := by
  intro l
  induction l with
  | nil => simp [insSorted]
  | cons y ys ih =>
    by_cases h : le x y = true <;> simp [insSorted, h, ih]

theorem length_insSort {α : Type} (le : α → α → Bool) :
    ∀ l : List α, (insSort le l).length = l.length := by
  intro l
  induction l with
  | nil => simp [insSort]
  | cons x xs ih => simp [insSort, length_insSorted, ih]

theorem pairwise_insSorted {α : Type} (le : α → α → Bool)
    (total : ∀ a b, le a b = true ∨ le b a = true)
    (htrans : ∀ a b c, le a b = true → le b c = true → le a c = true) (x : α) :
    ∀ l : List α, l.Pairwise (fun a b => le a b = true) →
      (insSorted le x l).Pairwise (fun a b => le a b = true) := by
  intro l
  induction l with
  | nil => simp [insSorted]
  | cons y ys ih =>
    intro hp
    rcases List.pairwise_cons.mp hp with ⟨hy, hys⟩
    cases hxy : le x y with
    | true =>
      simp only [insSorted, hxy, if_true]
      refine List.pairwise_cons.mpr ⟨?_, hp⟩
      intro b hb
      rcases List.mem_cons.mp hb with rfl | hb
      · exact hxy
      · exact htrans x y b hxy (hy b hb)
    | false =>
      simp only [insSorted, hxy, Bool.false_eq_true, if_false]
      refine List.pairwise_cons.mpr ⟨?_, ih hys⟩
      intro b hb
      rcases (mem_insSorted le x b ys).mp hb with rfl | hb
      · cases total b y with
        | inl h' => exact absurd h' (by simp [hxy])
        | inr h' => exact h'
      · exact hy b hb

theorem pairwise_insSort {α : Type} (le : α → α → Bool)
    (total : ∀ a b, le a b = true ∨ le b a = true)
    (htrans : ∀ a b c, le a b = true → le b c = true → le a c = true) :
    ∀ l : List α, (insSort le l).Pairwise (fun a b => le a b = true) := by
  intro l
  induction l with
  | nil => simp [insSort]
  | cons x xs ih => exact pairwise_insSorted le total htrans x _ ih

theorem mem_firstOccsAux {α : Type} [DecidableEq α] (a : α) :
    ∀ (l : List α) (seen : List α),
      a ∈ firstOccsAux seen l ↔ a ∈ l ∧ a ∉ seen := by
  intro l
  induction l with
  | nil => intro seen; simp [firstOccsAux]
  | cons x xs ih =>
    intro seen
    by_cases hx : x ∈ seen
    · rw [firstOccsAux, if_pos hx, ih]
      constructor
      · intro ⟨h1, h2⟩; exact ⟨List.mem_cons_of_mem x h1, h2⟩
      · rintro ⟨h1, h2⟩
        rcases List.mem_cons.mp h1 with rfl | h1
        · exact absurd hx h2
        · exact ⟨h1, h2⟩
    · rw [firstOccsAux, if_neg hx]
      by_cases hax : a = x
      · subst hax; simp [hx]
      · simp only [List.mem_cons, hax, false_or, ih]

theorem mem_firstOccs {α : Type} [DecidableEq α] (a : α) (l : List α) :
    a ∈ firstOccs l ↔ a ∈ l := by
  rw [firstOccs, mem_firstOccsAux]
  simp

theorem nodup_firstOccsAux {α : Type} [DecidableEq α] :
    ∀ (l : List α) (seen : List α), (firstOccsAux seen l).Nodup := by
  intro l
  induction l with
  | nil => intro seen; simp [firstOccsAux]
  | cons x xs ih =>
    intro seen
    by_cases hx : x ∈ seen
    · rw [firstOccsAux, if_pos hx]; exact ih seen
    · rw [firstOccsAux, if_neg hx]
      refine List.nodup_cons.mpr ⟨?_, ih (x :: seen)⟩
      intro hmem
      have := (mem_firstOccsAux x xs (x :: seen)).mp hmem
      simp at this

theorem nodup_firstOccs {α : Type} [DecidableEq α] (l : List α) :
    (firstOccs l).Nodup :=
  nodup_firstOccsAux l []

/-! ### ASCII character helpers

Python string methods are modelled for ASCII text (all corpus constants
in the source are ASCII).  Predicates are phrased over `Char.toNat` so
that arithmetic reasoning stays in `Nat`. -/

/-- ASCII lowercase letter, `a`–`z`. -/
def isLowerA (c : Char) : Bool := 97 ≤ c.toNat && c.toNat ≤ 122

/-- ASCII uppercase letter, `A`–`Z`. -/
def isUpperA (c : Char) : Bool := 65 ≤ c.toNat && c.toNat ≤ 90

/-- ASCII digit `0`–`9`. -/
def isDigitA (c : Char) : Bool := 48 ≤ c.toNat && c.toNat ≤ 57

/-- Python `str.lower` on one ASCII character. -/
def pyToLower (c : Char) : Char :=
  if isUpperA c then Char.ofNat (c.toNat + 32) else c

/-- Python `str.lower` on a string. -/
def pyLower (s : String) : String := ⟨s.data.map pyToLower⟩

/-- Python whitespace characters recognised by `str.split()`. -/
def isWsA (c : Char) : Bool :=
  c = ' ' || c = '\t' || c = '\n' || c = '\x0d' || c = '\x0b' || c = '\x0c'

/-- Accumulator form of `str.split()`: `acc` holds the current word,
reversed. -/
def wsSplitAux : List Char → List Char → List (List Char)
  | acc, [] => if acc.isEmpty then [] else [acc.reverse]
  | acc, c :: rest =>
    if isWsA c then
      if acc.isEmpty then wsSplitAux [] rest
      else acc.reverse :: wsSplitAux [] rest
    else wsSplitAux (c :: acc) rest

/-- Python `str.split()` (no separator): split on runs of whitespace and
discard empty pieces. -/
def wsSplit (l : List Char) : List (List Char) := wsSplitAux [] l

/-! ### Normalizer: `_tokenize` (`modules/text_processor.py`,
lines 207–250).

The regex `\b[a-z][a-z0-9_\-]+\b` of line 220 is embedded as an
explicit scanner with the exact semantics of `re.findall`: at a
position holding a lowercase letter preceded by a non-word character
(or the start), the greedy run of class characters is taken and then
backtracked to the longest end position of length at least 2 at which
a word boundary holds; on success scanning resumes at the match end,
on failure at the next character.  The scanner carries a fuel argument
(strictly decreasing list length at every step) so that it stays
structurally recursive and kernel-computable; `scanTokF_fuel_inv`
shows any sufficient fuel gives the same result. -/

/-- The regex character class `[a-z0-9_\-]`. -/
def isTokCharA (c : Char) : Bool := isLowerA c || isDigitA c || c == '_' || c == '-'

/-- Python `\w` over ASCII: letters, digits, underscore. -/
def isWordCharA (c : Char) : Bool := isLowerA c || isUpperA c || isDigitA c || c == '_'

/-- Longest admissible match length within a candidate run, examined
from the right: `cutLenRev rev next` walks the REVERSED candidate,
returning the largest `k ≥ 2` such that cutting after `k` characters
puts a word boundary there (`next` is the wordness of the character
following the current cut), or `0` when no cut is admissible. -/
def cutLenRev : List Char → Bool → Nat
  | [], _ => 0
  | x :: xs, nextWord =>
    if (isWordCharA x != nextWord) && decide (1 ≤ xs.length) then xs.length + 1
    else cutLenRev xs (isWordCharA x)

/-- Greedy run of class characters after the start character. -/
def runOf (rest : List Char) : List Char := rest.takeWhile isTokCharA

/-- Text after the greedy run. -/
def restOf (rest : List Char) : List Char := rest.dropWhile isTokCharA

/-- Wordness of the first character of what follows (end of text is a
non-word). -/
def nextWordOf : List Char → Bool
  | [] => false
  | d :: _ => isWordCharA d

/-- Chosen match length for a candidate starting at `c`. -/
def cutOf (c : Char) (rest : List Char) : Nat :=
  cutLenRev (c :: runOf rest).reverse (nextWordOf (restOf rest))

/-- Wordness of the last character of a match. -/
def lastWordOf (t : List Char) : Bool :=
  match t.getLast? with
  | some d => isWordCharA d
  | none => false

/-- The `re.findall` scanner; `prevWord` is the wordness of the
preceding character (a boundary before the match start requires it to
be false). -/
def scanTokF : Nat → List Char → Bool → List (List Char)
  | 0, _, _ => []
  | _ + 1, [], _ => []
  | fuel + 1, c :: rest, prevWord =>
    if isLowerA c && !prevWord then
      if 2 ≤ cutOf c rest then
        (c :: runOf rest).take (cutOf c rest) ::
          scanTokF fuel ((c :: runOf rest).drop (cutOf c rest) ++ restOf rest)
            (lastWordOf ((c :: runOf rest).take (cutOf c rest)))
      else scanTokF fuel rest (isWordCharA c)
    else scanTokF fuel rest (isWordCharA c)

/-- `re.findall(r..., text)` for the token pattern. -/
def scanTok (text : List Char) : List (List Char) :=
  scanTokF (text.length + 1) text false

/-- Python `str.replace(pat, rep)` (leftmost, non-overlapping), with
fuel for structural recursion; the patterns used are never empty. -/
def replaceAllF : Nat → List Char → List Char → List Char → List Char
  | 0, _, _, s => s
  | _ + 1, _, _, [] => []
  | fuel + 1, pat, rep, c :: rest =>
    if !pat.isEmpty && pat.isPrefixOf (c :: rest) then
      rep ++ replaceAllF fuel pat rep ((c :: rest).drop pat.length)
    else c :: replaceAllF fuel pat rep rest

def replaceAll (pat rep s : List Char) : List Char :=
  replaceAllF (s.length + 1) pat rep s

/-- `phrase_mapping` of lines 64–85, in source (dict insertion)
order. -/
def phraseMapping : List (String × String) :=
  [ ("artificial intelligence", "ai"),
    ("virtual reality", "vr"),
    ("augmented reality", "ar"),
    ("machine learning", "ml"),
    ("internet of things", "iot"),
    ("big data analytics", "big data"),
    ("word of mouth", "wom"),
    ("electronic word of mouth", "ewom"),
    ("user generated content", "ugc"),
    ("online travel agency", "ota"),
    ("customer satisfaction", "satisfaction"),
    ("tourist satisfaction", "satisfaction"),
    ("service quality", "service quality"),
    ("sustainable tourism", "sustainable tourism"),
    ("eco tourism", "ecotourism"),
    ("smart tourism", "smart tourism"),
    ("sharing economy", "sharing economy"),
    ("generative artificial intelligence", "generative ai"),
    ("large language model", "llm"),
    ("large language models", "llm") ]

/-- `replacement.replace(' ', '_')` (line 217). -/
def underscoreRep (s : String) : List Char :=
  s.data.map (fun c => if c == ' ' then '_' else c)

/-- The phrase-substitution pass of lines 216–217. -/
def applyPhrases (text : List Char) : List Char :=
  phraseMapping.foldl (fun acc pr => replaceAll pr.1.data (underscoreRep pr.2) acc) text

/-- `token.replace('_', ' ')` (line 225). -/
def restoreUnderscores (w : List Char) : List Char :=
  w.map (fun c => if c == '_' then ' ' else c)

/-- The basic stopword set of lines 104–121. -/
def stopwords : List (List Char) :=
  ([ "a", "an", "and", "are", "as", "at", "be", "by", "for", "from",
     "has", "have", "in", "is", "it", "its", "of", "on", "or", "that",
     "the", "this", "to", "was", "were", "will", "with", "which",
     "can", "could", "do", "does", "did", "done", "been", "being",
     "but", "if", "not", "no", "such", "than", "these", "those",
     "then", "there", "their", "they", "them", "through", "we", "our",
     "what", "when", "where", "who", "how", "why", "would", "should",
     "may", "might", "must", "shall", "also", "more", "most", "much",
     "many", "some", "any", "all", "both", "each", "few", "other",
     "over", "own", "same", "so", "too", "very", "just", "only",
     "now", "here", "however", "therefore", "thus", "although",
     "because", "since", "while", "between", "among", "during",
     "before", "after", "above", "below", "under", "within", "without",
     "about", "into", "onto", "upon", "per", "via", "etc", "ie", "eg",
     "i", "me", "my", "you", "your", "he", "him", "his", "she", "her",
     "one", "two", "three", "first", "second", "third", "well", "yet" ] :
   List String).map String.data

/-- The academic stopword set of lines 24–39. -/
def academicStopwords : List (List Char) :=
  ([ "study", "research", "paper", "article", "results", "findings",
     "analysis", "data", "method", "methods", "approach", "model",
     "using", "based", "propose", "proposed", "show", "shows",
     "suggest", "suggests", "indicate", "indicates", "examine",
     "examines", "explore", "explores", "investigate", "investigates",
     "aim", "aims", "objective", "purpose", "contribution",
     "literature", "review", "framework", "theory", "theoretical",
     "empirical", "quantitative", "qualitative", "sample", "samples",
     "respondent", "respondents", "participant", "participants",
     "significant", "significantly", "effect", "effects", "impact",
     "impacts", "influence", "influences", "relationship", "relationships",
     "factor", "factors", "variable", "variables", "hypothesis",
     "hypotheses", "conclusion", "conclusions", "implication", "implications",
     "limitation", "limitations", "future", "direction", "directions" ] :
   List String).map String.data

/-- The domain-term set of lines 42–61. -/
def domainTerms : List (List Char) :=
  ([ "tourism", "tourist", "tourists", "travel", "traveler", "travelers",
     "destination", "destinations", "hotel", "hotels", "hospitality",
     "accommodation", "airline", "airlines", "attraction", "attractions",
     "experience", "experiences", "satisfaction", "loyalty", "motivation",
     "sustainable", "sustainability", "eco-tourism", "ecotourism",
     "cultural", "heritage", "authenticity", "wellness", "medical",
     "dark tourism", "adventure", "rural", "urban", "coastal",
     "airbnb", "sharing economy", "platform", "online", "digital",
     "smart tourism", "smart destination", "iot", "big data",
     "virtual reality", "vr", "augmented reality", "ar", "metaverse",
     "artificial intelligence", "ai", "machine learning", "ml",
     "generative ai", "chatgpt", "llm", "chatbot", "robot",
     "service quality", "servicescape", "service recovery",
     "word of mouth", "wom", "ewom", "social media", "instagram",
     "influencer", "ugc", "review", "reviews", "rating", "ratings",
     "booking", "reservation", "ota", "expedia", "tripadvisor",
     "covid", "pandemic", "recovery", "resilience", "crisis",
     "overtourism", "undertourism", "gentrification", "carrying capacity" ] :
   List String).map String.data

/-- `stem_mapping` of lines 88–99. -/
def stemMapping : List (String × String) :=
  [ ("tourists", "tourist"),
    ("travelers", "traveler"),
    ("destinations", "destination"),
    ("hotels", "hotel"),
    ("experiences", "experience"),
    ("attractions", "attraction"),
    ("reviews", "review"),
    ("ratings", "rating"),
    ("booking", "booking"),
    ("bookings", "booking") ]

/-- Final stemming lookup (lines 245–246). -/
def stemApply (t : List Char) : List Char :=
  match stemMapping.find? (fun pr => pr.1.data == t) with
  | some pr => pr.2.data
  | none => t

/-- Python `str.isdigit()` (ASCII): non-empty and all digits. -/
def pyIsDigit (t : List Char) : Bool := !t.isEmpty && t.all isDigitA

/-- `_tokenize(text)`: lowercase, substitute phrases, scan tokens,
then filter and stem each token in the order of lines 222–248. -/
def pyTokenize (text : List Char) : List (List Char) :=
  (scanTok (applyPhrases (text.map pyToLower))).filterMap (fun tok =>
    let t := restoreUnderscores tok
    if stopwords.contains t then none
    else if academicStopwords.contains t && !(domainTerms.contains t) then none
    else if t.length < 2 then none
    else if pyIsDigit t then none
    else some (stemApply t))

/-- `' '.join(tokens)`: the text a token sequence spells. -/
def joinSp : List (List Char) → List Char
  | [] => []
  | [t] => t
  | t :: rest => t ++ ' ' :: joinSp rest

/-- Tokens of the shape the scanner emits for a single word: length at
least 2, a lowercase first character, characters drawn from lowercase
letters, digits and hyphens (no space: not a multi-word phrase token;
no underscore: underscores are restored to spaces), and no trailing
hyphen. -/
def shapeTok (t : List Char) : Bool :=
  decide (2 ≤ t.length) &&
  (match t with | [] => false | c :: _ => isLowerA c) &&
  t.all (fun c => isLowerA c || isDigitA c || c == '-') &&
  (match t.getLast? with | some c => !(c == '-') | none => false)

/-- A token that moreover passes every filter of lines 228–246
unchanged: not a stopword, not an academic stopword outside the domain
terms, and a fixpoint of the stem mapping. -/
def simpleTok (t : List Char) : Bool :=
  shapeTok t &&
  !(stopwords.contains t) &&
  !(academicStopwords.contains t && !(domainTerms.contains t)) &&
  (stemApply t == t)

/-! ### The record model

A Python paper dict.  `none` models an absent key; `some v` a present
value, so both the presence test `paper.get(k, default)` and the
truthiness test `if paper.get(k):` are expressible. -/

structure PyPaper where
  title : Option String := none
  all_keywords : Option (List String) := none
  keywords_normalized : Option (List String) := none
  keywords : Option (List String) := none
  abstract_tokens : Option (List String) := none
  year : Option Int := none
  citations : Option Int := none
  limitations : Option String := none
  future_research : Option String := none
deriving DecidableEq

/-- Python truthiness of an optional list value (`None` and `[]` are
falsy). -/
def truthyList {α : Type} : Option (List α) → Bool
  | some (_ :: _) => true
  | _ => false

/-- Python truthiness of an optional string (`None` and `""` are
falsy). -/
def truthyStr : Option String → Bool
  | some s => !(s.data.isEmpty)
  | none => false

/-- The year of a paper when it is truthy (`if not year: continue`
skips both a missing year and a zero year). -/
def truthyYear : Option Int → Option Int
  | some y => if y = 0 then none else some y
  | none => none

/-! ### KeywordIndexer: `analyze_keywords` and `analyze_keywords_by_year`
(`modules/analyzer.py`, lines 21–71).

Each record contributes a Python `set` of keywords; a `Counter` over
sets counts one per record containing the keyword, so the frequency of
a keyword is the number of records whose keyword list contains it.
`firstOccs` stands for the set contents (iteration order of a Python
set is unspecified; no theorem below depends on it). -/

/-- The keyword set one record contributes to `analyze_keywords`:
`all_keywords`, else `keywords_normalized`, else lowercased
`keywords`, matching the `if`/`elif` chain at lines 34–39. -/
def aggKeywordSet (p : PyPaper) : List String :=
  if truthyList p.all_keywords then firstOccs (p.all_keywords.getD [])
  else if truthyList p.keywords_normalized then firstOccs (p.keywords_normalized.getD [])
  else if truthyList p.keywords then firstOccs ((p.keywords.getD []).map pyLower)
  else []

/-- The keyword set one record contributes to
`analyze_keywords_by_year`: `all_keywords`, else lowercased `keywords`
(lines 59–62; note there is no `keywords_normalized` branch here). -/
def yearKeywordSet (p : PyPaper) : List String :=
  if truthyList p.all_keywords then firstOccs (p.all_keywords.getD [])
  else if truthyList p.keywords then firstOccs ((p.keywords.getD []).map pyLower)
  else []

/-- Frequency of keyword `kw` in the aggregate table built by
`analyze_keywords`. -/
def analyzeKeywordsCount (papers : List PyPaper) (kw : String) : Nat :=
  papers.countP (fun p => (aggKeywordSet p).contains kw)

/-- Frequency of keyword `kw` in year `y` of the per-year tables built
by `analyze_keywords_by_year`. -/
def analyzeByYearCount (papers : List PyPaper) (y : Int) (kw : String) : Nat :=
  papers.countP (fun p => truthyYear p.year == some y && (yearKeywordSet p).contains kw)

/-- The distinct truthy years present, in first-occurrence order: the
key set of the `yearly_keywords` defaultdict (a key is created for
every record with a truthy year, even one contributing no keywords). -/
def knownYears (papers : List PyPaper) : List Int :=
  firstOccs (papers.filterMap (fun p => truthyYear p.year))

/-! ### BurstDetector: `detect_burst_words`
(`modules/analyzer.py`, lines 73–139).

The float growth rate is modelled exactly over `ℚ`; the stored
`growth_rate` of a new keyword is already the normalised value
(`10.0` for `float('inf')`), and the inclusion test on the
pre-normalised value is reproduced verbatim: for a new keyword
`inf > 0.5` is exactly `recent_freq >= 3`, else `recent_freq > 0.5`. -/

/-- `years[-2:]`: the last two of the sorted distinct years. -/
def recentYears (ys : List Int) : List Int := ys.drop (ys.length - 2)

/-- `years[:-2] if len(years) > 2 else years[:1]`. -/
def earlierYears (ys : List Int) : List Int :=
  if 2 < ys.length then ys.take (ys.length - 2) else ys.take 1

/-- Sorted distinct truthy years of the corpus. -/
def burstYears (papers : List PyPaper) : List Int :=
  insSort (fun a b => a ≤ b) (knownYears papers)

/-- Summed frequency of `kw` over a window of years
(`Counter.update` over the per-year tables). -/
def windowFreq (papers : List PyPaper) (ys : List Int) (kw : String) : Nat :=
  (ys.map (fun y => analyzeByYearCount papers y kw)).sum

/-- One entry of the burst-word list.  `trend` is always `"rising"`. -/
structure BurstEntry where
  keyword : String
  recent_freq : Nat
  earlier_freq : Nat
  growth_rate : ℚ
  is_new : Bool
  trend : String
deriving DecidableEq

/-- Keywords with a positive count in the recent window, in canonical
first-occurrence order (the keys of the `recent_keywords` counter; tie
order inside one record set is unspecified in Python and irrelevant to
every theorem below). -/
def recentKeys (papers : List PyPaper) : List String :=
  firstOccs (((recentYears (burstYears papers)).map (fun y =>
    (papers.filter (fun p => truthyYear p.year == some y)).map yearKeywordSet)).flatten.flatten)

/-- Sort key of line 136: `(-growth_rate, -recent_freq)`, as a `Bool`
comparison for the stable sort. -/
def burstLe (a b : BurstEntry) : Bool :=
  decide (b.growth_rate < a.growth_rate ∨
    (b.growth_rate = a.growth_rate ∧ b.recent_freq ≤ a.recent_freq))

/-- Loop body of lines 112–133: the burst entry produced for one
keyword of the recent window, or `none` when the inclusion rule drops
it. -/
def burstEntryOf (papers : List PyPaper) (kw : String) : Option BurstEntry :=
  let r := windowFreq papers (recentYears (burstYears papers)) kw
  let e := windowFreq papers (earlierYears (burstYears papers)) kw
  if e = 0 then
    -- growth_rate = inf if r >= 3 else r; kept iff growth > 0.5 or
    -- (is_new and r >= 3), which for a new keyword is r >= 3 or r > 0.5;
    -- the stored growth is 10.0 in place of inf
    if 3 ≤ r ∨ mkRat 1 2 < mkRat r 1 then
      some ⟨kw, r, e, if 3 ≤ r then 10 else mkRat r 1, true, "rising"⟩
    else none
  else
    -- growth_rate = (recent_freq - earlier_freq) / earlier_freq
    let g : ℚ := mkRat ((r : Int) - (e : Int)) e
    if mkRat 1 2 < g then some ⟨kw, r, e, g, false, "rising"⟩ else none

/-- `detect_burst_words(papers)` (default window argument). -/
def detectBurstWords (papers : List PyPaper) : List BurstEntry :=
  if (burstYears papers).length < 2 then []
  else insSort burstLe ((recentKeys papers).filterMap (burstEntryOf papers))

/-- The inclusion rule of line 125, per keyword: keep iff
`growth_rate > 0.5 or (is_new and recent_freq >= 3)`; for a new keyword
the pre-normalisation growth is `inf` (when `recent_freq >= 3`) or the
raw count, so the test reduces as written below. -/
def burstKeep (papers : List PyPaper) (kw : String) : Prop :=
  let r := windowFreq papers (recentYears (burstYears papers)) kw
  let e := windowFreq papers (earlierYears (burstYears papers)) kw
  if e = 0 then 3 ≤ r ∨ mkRat 1 2 < mkRat r 1
  else mkRat 1 2 < mkRat ((r : Int) - (e : Int)) e

theorem burstLe_total : ∀ a b, burstLe a b = true ∨ burstLe b a = true := by
  intro a b
  unfold burstLe
  rcases lt_trichotomy a.growth_rate b.growth_rate with h | h | h
  · right; exact decide_eq_true (Or.inl h)
  · rcases Nat.le_total b.recent_freq a.recent_freq with h2 | h2
    · left; exact decide_eq_true (Or.inr ⟨h.symm, h2⟩)
    · right; exact decide_eq_true (Or.inr ⟨h, h2⟩)
  · left; exact decide_eq_true (Or.inl h)

theorem burstLe_trans :
    ∀ a b c, burstLe a b = true → burstLe b c = true → burstLe a c = true := by
  intro a b c hab hbc
  unfold burstLe at *
  rcases of_decide_eq_true hab with h1 | ⟨h1, h1'⟩ <;>
    rcases of_decide_eq_true hbc with h2 | ⟨h2, h2'⟩
  · exact decide_eq_true (Or.inl (lt_trans h2 h1))
  · exact decide_eq_true (Or.inl (h2 ▸ h1))
  · exact decide_eq_true (Or.inl (h1 ▸ h2))
  · exact decide_eq_true (Or.inr ⟨h2.trans h1, Nat.le_trans h2' h1'⟩)

theorem mem_detectBurstWords (papers : List PyPaper) (e : BurstEntry) :
    e ∈ detectBurstWords papers ↔
      2 ≤ (burstYears papers).length ∧
        ∃ kw ∈ recentKeys papers, burstEntryOf papers kw = some e := by
  unfold detectBurstWords
  by_cases h : (burstYears papers).length < 2
  · rw [if_pos h]
    simp only [List.not_mem_nil, false_iff]
    rintro ⟨hlen, -⟩
    omega
  · rw [if_neg h, mem_insSort, List.mem_filterMap]
    simp only [Nat.not_lt] at h
    simp [h]

theorem mem_recentKeys (papers : List PyPaper) (kw : String) :
    kw ∈ recentKeys papers ↔
      ∃ y ∈ recentYears (burstYears papers), ∃ p ∈ papers,
        (truthyYear p.year == some y) = true ∧ kw ∈ yearKeywordSet p := by
  unfold recentKeys
  rw [mem_firstOccs]
  simp only [List.mem_flatten, List.mem_map, List.mem_filter]
  constructor
  · rintro ⟨l, ⟨l2, ⟨y, hy, rfl⟩, hl⟩, hkw⟩
    rcases List.mem_map.mp hl with ⟨p, hp, rfl⟩
    rcases List.mem_filter.mp hp with ⟨hp1, hp2⟩
    exact ⟨y, hy, p, hp1, hp2, hkw⟩
  · rintro ⟨y, hy, p, hp, hpy, hkw⟩
    refine ⟨yearKeywordSet p, ⟨_, ⟨y, hy, rfl⟩, ?_⟩, hkw⟩
    exact List.mem_map_of_mem _ (List.mem_filter.mpr ⟨hp, hpy⟩)

theorem mem_recentKeys_iff_pos (papers : List PyPaper) (kw : String) :
    kw ∈ recentKeys papers ↔
      0 < windowFreq papers (recentYears (burstYears papers)) kw := by
  rw [mem_recentKeys]
  unfold windowFreq
  constructor
  · rintro ⟨y, hy, p, hp, hpy, hkw⟩
    have hpos : 0 < analyzeByYearCount papers y kw := by
      unfold analyzeByYearCount
      rw [List.countP_pos_iff]
      exact ⟨p, hp, by simp [hpy, hkw]⟩
    by_contra hz
    push_neg at hz
    interval_cases h : (List.map (fun y => analyzeByYearCount papers y kw)
      (recentYears (burstYears papers))).sum
    have := List.sum_eq_zero_iff.mp h _ (List.mem_map_of_mem _ hy)
    omega
  · intro hpos
    have : ∃ n ∈ (recentYears (burstYears papers)).map
        (fun y => analyzeByYearCount papers y kw), 0 < n := by
      by_contra hall
      push_neg at hall
      have : ((recentYears (burstYears papers)).map
          (fun y => analyzeByYearCount papers y kw)).sum = 0 :=
        List.sum_eq_zero_iff.mpr (fun x hx => Nat.le_antisymm (hall x hx) (Nat.zero_le x))
      omega
    rcases this with ⟨n, hn, hnpos⟩
    rcases List.mem_map.mp hn with ⟨y, hy, rfl⟩
    unfold analyzeByYearCount at hnpos
    rcases List.countP_pos_iff.mp hnpos with ⟨p, hp, hcond⟩
    rcases Bool.and_eq_true_iff.mp hcond with ⟨h1, h2⟩
    exact ⟨y, hy, p, hp, h1, by simpa using h2⟩

theorem burstEntryOf_isSome (papers : List PyPaper) (kw : String) :
    (∃ e, burstEntryOf papers kw = some e) ↔ burstKeep papers kw := by
  unfold burstEntryOf burstKeep
  by_cases he : windowFreq papers (earlierYears (burstYears papers)) kw = 0
  · simp only [he, if_true]
    by_cases hc : 3 ≤ windowFreq papers (recentYears (burstYears papers)) kw ∨
        mkRat 1 2 < mkRat (windowFreq papers (recentYears (burstYears papers)) kw) 1
    · simp [hc]
    · simp [hc]
  · simp only [he, if_false]
    by_cases hc : mkRat 1 2 <
        mkRat ((windowFreq papers (recentYears (burstYears papers)) kw : Int) -
          (windowFreq papers (earlierYears (burstYears papers)) kw : Int))
          (windowFreq papers (earlierYears (burstYears papers)) kw)
    · simp [hc]
    · simp [hc]

theorem burstEntryOf_fields (papers : List PyPaper) (kw : String) (e : BurstEntry)
    (h : burstEntryOf papers kw = some e) :
    e.keyword = kw ∧
      e.recent_freq = windowFreq papers (recentYears (burstYears papers)) kw ∧
      e.earlier_freq = windowFreq papers (earlierYears (burstYears papers)) kw ∧
      (e.is_new = true ↔ e.earlier_freq = 0) ∧
      (e.earlier_freq = 0 →
        e.growth_rate = if 3 ≤ e.recent_freq then (10 : ℚ) else mkRat e.recent_freq 1) := by
  unfold burstEntryOf at h
  by_cases he : windowFreq papers (earlierYears (burstYears papers)) kw = 0
  · simp only [he, if_true] at h
    split at h
    · cases h
      refine ⟨rfl, rfl, he.symm, by simp, fun _ => rfl⟩
    · cases h
  · simp only [he, if_false] at h
    split at h
    · cases h
      refine ⟨rfl, rfl, rfl, by simp [he], fun hz => absurd hz he⟩
    · cases h

/-! ### Claim C2 -/

/-- C2: for every burst entry with `earlier_freq = 0` the stored
growth value is `10.0` when `recent_freq >= 3` and the raw count
otherwise; a keyword of the recent window yields an entry exactly when
the inclusion rule `growth_rate > 0.5 or (is_new and recent_freq >= 3)`
holds (and at least two distinct years exist); and the returned list is
sorted by descending growth rate with ties broken by descending
`recent_freq`. -/
theorem c2_burst_growth_inclusion_sort (papers : List PyPaper) :
    (∀ e ∈ detectBurstWords papers,
        e.earlier_freq = 0 →
          e.is_new = true ∧
            e.growth_rate =
              if 3 ≤ e.recent_freq then (10 : ℚ) else mkRat e.recent_freq 1) ∧
    (∀ kw : String,
        (∃ e ∈ detectBurstWords papers, e.keyword = kw) ↔
          2 ≤ (burstYears papers).length ∧
            0 < windowFreq papers (recentYears (burstYears papers)) kw ∧
            burstKeep papers kw) ∧
    (detectBurstWords papers).Pairwise (fun a b =>
        b.growth_rate < a.growth_rate ∨
          (b.growth_rate = a.growth_rate ∧ b.recent_freq ≤ a.recent_freq)) := by
  refine ⟨?_, ?_, ?_⟩
  · intro e he hz
    rcases (mem_detectBurstWords papers e).mp he with ⟨-, kw, -, hsome⟩
    rcases burstEntryOf_fields papers kw e hsome with ⟨-, -, -, hnew, hgrow⟩
    exact ⟨hnew.mpr hz, hgrow hz⟩
  · intro kw
    constructor
    · rintro ⟨e, he, rfl⟩
      rcases (mem_detectBurstWords papers e).mp he with ⟨hlen, kw', hmem, hsome⟩
      rcases burstEntryOf_fields papers kw' e hsome with ⟨hkw, -, -, -, -⟩
      subst hkw
      exact ⟨hlen, (mem_recentKeys_iff_pos papers e.keyword).mp hmem,
        (burstEntryOf_isSome papers e.keyword).mp ⟨e, hsome⟩⟩
    · rintro ⟨hlen, hpos, hkeep⟩
      rcases (burstEntryOf_isSome papers kw).mpr hkeep with ⟨e, hsome⟩
      rcases burstEntryOf_fields papers kw e hsome with ⟨hkw, -, -, -, -⟩
      refine ⟨e, ?_, hkw⟩
      exact (mem_detectBurstWords papers e).mpr
        ⟨hlen, kw, (mem_recentKeys_iff_pos papers kw).mpr hpos, hsome⟩
  · unfold detectBurstWords
    split
    · simp
    · refine List.Pairwise.imp ?_
        (pairwise_insSort burstLe burstLe_total burstLe_trans _)
      intro a b hle
      exact of_decide_eq_true hle

/-- C2, witness: a two-year corpus in which `ml` is a new keyword with
`recent_freq = 1` (entry kept, growth value the raw count 1) and `ai`
is unchanged (entry dropped). -/
theorem c2_burst_growth_inclusion_sort_witness :
    (∀ e ∈ detectBurstWords
        [ { year := some 2022, all_keywords := some ["ai"] },
          { year := some 2024, all_keywords := some ["ai", "ml"] } ],
        e.earlier_freq = 0 →
          e.is_new = true ∧
            e.growth_rate =
              if 3 ≤ e.recent_freq then (10 : ℚ) else mkRat e.recent_freq 1) ∧
    ((∃ e ∈ detectBurstWords
        [ { year := some 2022, all_keywords := some ["ai"] },
          { year := some 2024, all_keywords := some ["ai", "ml"] } ],
        e.keyword = "ml")) := by
  constructor
  · exact (c2_burst_growth_inclusion_sort _).1
  · refine ((c2_burst_growth_inclusion_sort _).2.1 "ml").mpr ?_
    refine ⟨by decide, by decide, ?_⟩
    unfold burstKeep
    decide

/-! ### GapMiner: `identify_research_gaps`
(`modules/analyzer.py`, lines 294–408). -/

/-- A String from raw characters. -/
def strOf (w : List Char) : String := ⟨w⟩

/-- `', '.join(...)`. -/
def joinComma : List String → String
  | [] => ""
  | [s] => s
  | s :: rest => s ++ ", " ++ joinComma rest

/-- The words one narrative excerpt contributes to a theme counter:
`text.lower().split()`, keeping words of length `> 4` (lines 312–317).
Multiplicities are kept — the counter counts occurrences, not
excerpts. -/
def themeWords (s : String) : List (List Char) :=
  (wsSplit (s.data.map pyToLower)).filter (fun w => 4 < w.length)

/-- Words contributed by a record's `future_research` (truthiness
guard of line 315). -/
def futureWordsOf (p : PyPaper) : List (List Char) :=
  if truthyStr p.future_research then themeWords (p.future_research.getD "") else []

/-- Words contributed by a record's `limitations` (line 310). -/
def limitationWordsOf (p : PyPaper) : List (List Char) :=
  if truthyStr p.limitations then themeWords (p.limitations.getD "") else []

/-- All theme words of the corpus in order: the update sequence of the
`future_themes` / `limitation_themes` counters. -/
def allFutureWords (papers : List PyPaper) : List (List Char) :=
  (papers.map futureWordsOf).flatten

def allLimitationWords (papers : List PyPaper) : List (List Char) :=
  (papers.map limitationWordsOf).flatten

/-- `Counter(ws).most_common()`: keys in first-occurrence order, stably
sorted by descending count. -/
def mostCommonL (ws : List (List Char)) : List (List Char × Nat) :=
  insSort (fun a b => decide (b.2 ≤ a.2))
    ((firstOccs ws).map (fun k => (k, ws.count k)))

/-- `[w for w, c in themes.most_common(20) if c >= 2]`
(lines 320–321). -/
def commonThemes (ws : List (List Char)) : List (List Char) :=
  (((mostCommonL ws).take 20).filter (fun kc => 2 ≤ kc.2)).map Prod.fst

def commonFuture (papers : List PyPaper) : List (List Char) :=
  commonThemes (allFutureWords papers)

def commonLimitations (papers : List PyPaper) : List (List Char) :=
  commonThemes (allLimitationWords papers)

/-- `paper.get('all_keywords', paper.get('keywords', []))` (line 329):
a presence-based (not truthiness-based) fallback. -/
def gapKwList (p : PyPaper) : List String :=
  match p.all_keywords with
  | some l => l
  | none => p.keywords.getD []

/-- The `(keyword, citations)` occurrence sequence of lines 327–334:
keywords are lowercased and each occurrence counts once per appearance
in the list. -/
def gapKwPairs (papers : List PyPaper) : List (String × Int) :=
  (papers.map (fun p =>
    (gapKwList p).map (fun kw => (pyLower kw, p.citations.getD 0)))).flatten

/-- `keyword_freq[kw]`: occurrences of `kw` in the pair sequence. -/
def keywordFreqGap (papers : List PyPaper) (kw : String) : Nat :=
  (gapKwPairs papers).countP (fun pr => pr.1 == kw)

structure PotTopic where
  keyword : String
  avg_citations : ℚ
  frequency : Nat
deriving DecidableEq

/-- Lines 337–351: keywords appearing at least twice, with mean
citations above 10 and frequency below 5, sorted by descending mean
citations. -/
def highImpactLowFreq (papers : List PyPaper) : List PotTopic :=
  insSort (fun a b => decide (b.avg_citations ≤ a.avg_citations))
    ((firstOccs ((gapKwPairs papers).map Prod.fst)).filterMap (fun kw =>
      let cites := ((gapKwPairs papers).filter (fun pr => pr.1 == kw)).map Prod.snd
      if 2 ≤ cites.length then
        if 10 < mkRat cites.sum cites.length ∧ cites.length < 5 then
          some ⟨kw, mkRat cites.sum cites.length, cites.length⟩
        else none
      else none))

/-- The fixed technology list of line 390. -/
def emergingTech : List String :=
  ["generative ai", "chatgpt", "llm", "metaverse", "blockchain", "iot", "digital twin"]

/-- Technologies with corpus frequency below 10 (lines 391–395). -/
def techGaps (papers : List PyPaper) : List String :=
  emergingTech.filter (fun t => keywordFreqGap papers t < 10)

structure Gap where
  id : Nat
  title : String
  description : String
  source_count : Nat
  keywords : List String
  opportunity : String
  potential_topics : List PotTopic := []
deriving DecidableEq

/-- Gap 1 of lines 355–363. -/
def futureGap (papers : List PyPaper) : Gap :=
  { id := 1,
    title := "Methodological Advancement",
    description := "Multiple studies suggest future research should address: " ++
      joinComma (((commonFuture papers).take 5).map strOf),
    source_count := papers.countP (fun p => truthyStr p.future_research),
    keywords := ((commonFuture papers).take 10).map strOf,
    opportunity := "Consider developing new methodological approaches or frameworks addressing these areas." }

/-- Gap 2 of lines 365–374. -/
def limitationGap (papers : List PyPaper) : Gap :=
  { id := 2,
    title := "Addressing Current Limitations",
    description := "Common limitations across studies include: " ++
      joinComma (((commonLimitations papers).take 5).map strOf),
    source_count := papers.countP (fun p => truthyStr p.limitations),
    keywords := ((commonLimitations papers).take 10).map strOf,
    opportunity := "Design studies that specifically overcome these common methodological limitations." }

/-- Gap 3 of lines 376–387. -/
def highImpactGap (papers : List PyPaper) : Gap :=
  { id := 3,
    title := "High-Impact Underexplored Topics",
    description := "Topics with high citation impact but low publication frequency: " ++
      joinComma (((highImpactLowFreq papers).take 5).map PotTopic.keyword),
    source_count := (((highImpactLowFreq papers).take 5).map PotTopic.frequency).sum,
    keywords := ((highImpactLowFreq papers).take 5).map PotTopic.keyword,
    opportunity := "These topics show high academic interest but limited coverage - prime opportunities for new contributions.",
    potential_topics := (highImpactLowFreq papers).take 5 }

/-- Gap 4 of lines 389–405. -/
def emergingGap (papers : List PyPaper) : Gap :=
  { id := 4,
    title := "Emerging Technology Applications",
    description := "Cutting-edge technologies with limited tourism research coverage: " ++
      joinComma ((techGaps papers).take 5),
    source_count := ((techGaps papers).map (keywordFreqGap papers)).sum,
    keywords := techGaps papers,
    opportunity := "Apply these emerging technologies to tourism contexts for innovative research contributions." }

/-- `identify_research_gaps(papers)`: each category is appended only
when its evidence is truthy. -/
def identifyResearchGaps (papers : List PyPaper) : List Gap :=
  (if (commonFuture papers).isEmpty then [] else [futureGap papers]) ++
  (if (commonLimitations papers).isEmpty then [] else [limitationGap papers]) ++
  (if (highImpactLowFreq papers).isEmpty then [] else [highImpactGap papers]) ++
  (if (techGaps papers).isEmpty then [] else [emergingGap papers])

theorem flatten_map_eq_nil {α β : Type} (f : α → List β) (l : List α)
    (h : ∀ a ∈ l, f a = []) : (l.map f).flatten = [] := by
  induction l with
  | nil => rfl
  | cons a l ih =>
    rw [List.map_cons, List.flatten_cons, h a (List.mem_cons_self a l),
      ih (fun b hb => h b (List.mem_cons_of_mem a hb))]
    rfl

theorem mem_if_singleton {α : Type} (b : Bool) (x g : α)
    (h : g ∈ (if b = true then ([] : List α) else [x])) : g = x := by
  cases b
  · simpa using h
  · simp at h

theorem mem_identifyResearchGaps (papers : List PyPaper) (g : Gap)
    (hg : g ∈ identifyResearchGaps papers) :
    g = futureGap papers ∨ g = limitationGap papers ∨
      g = highImpactGap papers ∨ g = emergingGap papers := by
  unfold identifyResearchGaps at hg
  simp only [List.mem_append] at hg
  rcases hg with ((h | h) | h) | h
  · exact Or.inl (mem_if_singleton _ _ _ h)
  · exact Or.inr (Or.inl (mem_if_singleton _ _ _ h))
  · exact Or.inr (Or.inr (Or.inl (mem_if_singleton _ _ _ h)))
  · exact Or.inr (Or.inr (Or.inr (mem_if_singleton _ _ _ h)))

theorem themeGap_keyword_bound (ws : List (List Char)) (w : List Char)
    (hw : w ∈ (commonThemes ws).take 10) :
    2 ≤ ws.count w ∧ w ∈ ((mostCommonL ws).take 20).map Prod.fst := by
  have hw2 : w ∈ commonThemes ws := (List.take_sublist _ _).mem hw
  unfold commonThemes at hw2
  rcases List.mem_map.mp hw2 with ⟨kc, hkc, rfl⟩
  rcases List.mem_filter.mp hkc with ⟨hkc2, hcnt⟩
  have hcnt2 : 2 ≤ kc.2 := by simpa using hcnt
  have hkc3 : kc ∈ mostCommonL ws := (List.take_sublist _ _).mem hkc2
  unfold mostCommonL at hkc3
  rw [mem_insSort] at hkc3
  rcases List.mem_map.mp hkc3 with ⟨k, hk, hkeq⟩
  refine ⟨?_, List.mem_map_of_mem Prod.fst hkc2⟩
  have : kc.1 = k ∧ kc.2 = ws.count k := by
    rw [← hkeq]
    exact ⟨rfl, rfl⟩
  rcases this with ⟨h1, h2⟩
  rw [h1]
  rw [h2] at hcnt2
  exact hcnt2

/-! ### Lemmas about the tokenizer (for Claim C7) -/

theorem isLowerA_toNat {c : Char} (h : isLowerA c = true) :
    97 ≤ c.toNat ∧ c.toNat ≤ 122 := by
  simpa [isLowerA, Bool.and_eq_true, decide_eq_true_eq] using h

theorem isDigitA_toNat {c : Char} (h : isDigitA c = true) :
    48 ≤ c.toNat ∧ c.toNat ≤ 57 := by
  simpa [isDigitA, Bool.and_eq_true, decide_eq_true_eq] using h

theorem isUpperA_false_of_toNat {c : Char} (h : ¬(65 ≤ c.toNat ∧ c.toNat ≤ 90)) :
    isUpperA c = false := by
  cases hu : isUpperA c
  · rfl
  · exfalso
    apply h
    simpa [isUpperA, Bool.and_eq_true, decide_eq_true_eq] using hu

/-- The character class of a simple token. -/
def simpleChar (c : Char) : Bool := isLowerA c || isDigitA c || c == '-'

theorem simpleChar_cases {c : Char} (h : simpleChar c = true) :
    isLowerA c = true ∨ isDigitA c = true ∨ c = '-' := by
  simp only [simpleChar, Bool.or_eq_true, beq_iff_eq] at h
  tauto

theorem simpleChar_toLower {c : Char} (h : simpleChar c = true) : pyToLower c = c := by
  rw [pyToLower, if_neg]
  rw [Bool.not_eq_true]
  apply isUpperA_false_of_toNat
  rcases simpleChar_cases h with h | h | rfl
  · have := isLowerA_toNat h; omega
  · have := isDigitA_toNat h; omega
  · intro hc
    have : ('-').toNat = 45 := rfl
    omega

theorem simpleChar_not_underscore {c : Char} (h : simpleChar c = true) :
    (c == '_') = false := by
  cases he : c == '_'
  · rfl
  · exfalso
    have hc : c = '_' := by simpa using he
    subst hc
    rcases simpleChar_cases h with h | h | h
    · have := isLowerA_toNat h
      have h95 : ('_').toNat = 95 := rfl
      omega
    · have := isDigitA_toNat h
      have h95 : ('_').toNat = 95 := rfl
      omega
    · simp at h

theorem simpleChar_isTok {c : Char} (h : simpleChar c = true) : isTokCharA c = true := by
  rcases simpleChar_cases h with h | h | rfl <;> simp [isTokCharA, h]

theorem simpleChar_word {c : Char} (h : simpleChar c = true) (hne : (c == '-') = false) :
    isWordCharA c = true := by
  rcases simpleChar_cases h with h | h | rfl
  · simp [isWordCharA, h]
  · simp [isWordCharA, h]
  · simp at hne

theorem simpleChar_not_digit_of_lower {c : Char} (h : isLowerA c = true) :
    isDigitA c = false := by
  cases hd : isDigitA c
  · rfl
  · have h1 := isLowerA_toNat h
    have h2 := isDigitA_toNat hd
    omega

theorem takeWhile_append_split (p : Char → Bool) :
    ∀ (l r : List Char), (∀ c ∈ l, p c = true) →
      (r = [] ∨ ∀ d, r.head? = some d → p d = false) →
      (l ++ r).takeWhile p = l ∧ (l ++ r).dropWhile p = r := by
  intro l
  induction l with
  | nil =>
    intro r _ hr
    rcases hr with rfl | hd
    · exact ⟨rfl, rfl⟩
    · cases r with
      | nil => exact ⟨rfl, rfl⟩
      | cons d rs =>
        have hpd : p d = false := hd d rfl
        simp [List.takeWhile_cons, List.dropWhile_cons, hpd]
  | cons c cs ih =>
    intro r h hr
    have hc : p c = true := h c (List.mem_cons_self c cs)
    rcases ih r (fun x hx => h x (List.mem_cons_of_mem c hx)) hr with ⟨h1, h2⟩
    constructor
    · simp [List.takeWhile_cons, hc, h1]
    · simp [List.dropWhile_cons, hc, h2]

theorem cutLenRev_le : ∀ (l : List Char) (nw : Bool), cutLenRev l nw ≤ l.length := by
  intro l
  induction l with
  | nil => intro nw; simp [cutLenRev]
  | cons x xs ih =>
    intro nw
    rw [cutLenRev]
    by_cases h : ((isWordCharA x != nw) && decide (1 ≤ xs.length)) = true
    · rw [if_pos h]; simp
    · rw [if_neg h]
      exact Nat.le_trans (ih (isWordCharA x)) (by simp)

theorem shapeTok_facts {t : List Char} (h : shapeTok t = true) :
    2 ≤ t.length ∧
      (∀ c ∈ t, simpleChar c = true) ∧
      (match t with | [] => False | c :: _ => isLowerA c = true) ∧
      (match t.getLast? with | some c => (c == '-') = false | none => False) := by
  simp only [shapeTok, Bool.and_eq_true, decide_eq_true_eq] at h
  obtain ⟨⟨⟨h1, h2⟩, h3⟩, h4⟩ := h
  refine ⟨h1, ?_, ?_, ?_⟩
  · intro c hc
    exact List.all_eq_true.mp h3 c hc
  · cases t with
    | nil => simp at h1
    | cons c cs => exact h2
  · cases hg : t.getLast? with
    | none =>
      rw [hg] at h4
      simp at h4
    | some c =>
      rw [hg] at h4
      simpa using h4

theorem cutLenRev_reverse_of_shape (t : List Char) (hshape : shapeTok t = true) :
    cutLenRev t.reverse false = t.length := by
  rcases shapeTok_facts hshape with ⟨hlen, hcls, -, hlast⟩
  rcases List.eq_nil_or_concat t with rfl | ⟨init, x, rfl⟩
  · simp at hlen
  · rw [List.concat_eq_append] at hlen hcls hlast ⊢
    rw [List.reverse_append]
    have hx : (init ++ [x]).getLast? = some x := by simp
    rw [hx] at hlast
    have hxcls : simpleChar x = true :=
      hcls x (List.mem_append_right init (List.mem_singleton_self x))
    have hxw : isWordCharA x = true := simpleChar_word hxcls hlast
    show cutLenRev (x :: init.reverse) false = (init ++ [x]).length
    rw [cutLenRev]
    have h1 : 1 ≤ init.length := by
      rw [List.length_append] at hlen
      simpa using hlen
    rw [if_pos (by simp [hxw, h1])]
    rw [List.length_reverse, List.length_append]
    simp

theorem scanTokF_nil : ∀ (f : Nat) (pw : Bool), scanTokF f [] pw = [] := by
  intro f pw
  cases f <;> rfl

theorem scanTokF_fuel_inv :
    ∀ (n : Nat) (text : List Char) (pw : Bool) (f1 f2 : Nat),
      text.length ≤ n → text.length < f1 → text.length < f2 →
      scanTokF f1 text pw = scanTokF f2 text pw := by
  intro n
  induction n with
  | zero =>
    intro text pw f1 f2 hn _ _
    have ht : text = [] := List.eq_nil_of_length_eq_zero (Nat.le_zero.mp hn)
    subst ht
    rw [scanTokF_nil, scanTokF_nil]
  | succ n ih =>
    intro text pw f1 f2 hn h1 h2
    cases text with
    | nil => rw [scanTokF_nil, scanTokF_nil]
    | cons c rest =>
      cases f1 with
      | zero => simp at h1
      | succ g1 =>
        cases f2 with
        | zero => simp at h2
        | succ g2 =>
          have hsum : (runOf rest).length + (restOf rest).length = rest.length := by
            rw [runOf, restOf, ← List.length_append, List.takeWhile_append_dropWhile]
          have hkle : cutOf c rest ≤ (runOf rest).length + 1 := by
            have := cutLenRev_le (c :: runOf rest).reverse (nextWordOf (restOf rest))
            rw [List.length_reverse] at this
            simpa [cutOf] using this
          simp only [scanTokF]
          by_cases hc : (isLowerA c && !pw) = true
          · rw [if_pos hc, if_pos hc]
            by_cases hk : 2 ≤ cutOf c rest
            · rw [if_pos hk, if_pos hk]
              congr 1
              have hdlen : (((c :: runOf rest).drop (cutOf c rest)) ++ restOf rest).length
                  = (runOf rest).length + 1 - cutOf c rest + (restOf rest).length := by
                rw [List.length_append, List.length_drop]
                rfl
              apply ih
              · rw [hdlen]
                simp only [List.length_cons] at hn
                omega
              · rw [hdlen]
                simp only [List.length_cons] at h1
                omega
              · rw [hdlen]
                simp only [List.length_cons] at h2
                omega
            · rw [if_neg hk, if_neg hk]
              apply ih
              · simp only [List.length_cons] at hn; omega
              · simp only [List.length_cons] at h1; omega
              · simp only [List.length_cons] at h2; omega
          · rw [if_neg hc, if_neg hc]
            apply ih
            · simp only [List.length_cons] at hn; omega
            · simp only [List.length_cons] at h1; omega
            · simp only [List.length_cons] at h2; omega

theorem scanTokF_step (t tail : List Char) (fuel : Nat)
    (hshape : shapeTok t = true)
    (htail : tail = [] ∨ ∃ u, tail = ' ' :: u)
    (hlen : (t ++ tail).length < fuel) :
    scanTokF fuel (t ++ tail) false = t :: scanTokF fuel tail false := by
  rcases shapeTok_facts hshape with ⟨hlen2, hcls, hhead, -⟩
  cases t with
  | nil => simp at hlen2
  | cons c ctail =>
    have hheadc : isLowerA c = true := hhead
    cases fuel with
    | zero => simp at hlen
    | succ g =>
      have happ : (c :: ctail) ++ tail = c :: (ctail ++ tail) := rfl
      rw [happ]
      have hsplit := takeWhile_append_split isTokCharA ctail tail
        (fun d hd => simpleChar_isTok (hcls d (List.mem_cons_of_mem c hd)))
        (by
          rcases htail with rfl | ⟨u, rfl⟩
          · exact Or.inl rfl
          · refine Or.inr ?_
            intro d hd
            cases hd
            rfl)
      have hrun : runOf (ctail ++ tail) = ctail := hsplit.1
      have hrest : restOf (ctail ++ tail) = tail := hsplit.2
      have hnext : nextWordOf tail = false := by
        rcases htail with rfl | ⟨u, rfl⟩ <;> rfl
      have hcut : cutOf c (ctail ++ tail) = (c :: ctail).length := by
        rw [cutOf, hrun, hrest, hnext]
        exact cutLenRev_reverse_of_shape (c :: ctail) hshape
      simp only [scanTokF]
      rw [hrun, hrest, hcut]
      rw [if_pos (by simp [hheadc])]
      rw [if_pos hlen2]
      rw [List.take_length, List.drop_length, List.nil_append]
      congr 1
      rcases htail with rfl | ⟨u, rfl⟩
      · rw [scanTokF_nil, scanTokF_nil]
      · have hg : u.length + 2 ≤ g := by
          simp only [List.length_append, List.length_cons] at hlen
          omega
        cases g with
        | zero => omega
        | succ g2 =>
          simp only [scanTokF]
          have hsp : isLowerA ' ' = false := by decide
          rw [if_neg (by simp [hsp]), if_neg (by simp [hsp])]
          exact scanTokF_fuel_inv u.length u (isWordCharA ' ') g2 (g2 + 1)
            (Nat.le_refl _) (by omega) (by omega)

theorem scanTokF_joinSp :
    ∀ (ts : List (List Char)) (fuel : Nat),
      (∀ t ∈ ts, shapeTok t = true) → (joinSp ts).length < fuel →
      scanTokF fuel (joinSp ts) false = ts := by
  intro ts
  induction ts with
  | nil =>
    intro fuel _ _
    exact scanTokF_nil fuel false
  | cons t rest ih =>
    intro fuel hsh hlen
    cases rest with
    | nil =>
      have hj : joinSp [t] = t ++ [] := by simp [joinSp]
      rw [hj] at hlen ⊢
      rw [scanTokF_step t [] fuel (hsh t (List.mem_cons_self t [])) (Or.inl rfl) hlen]
      rw [scanTokF_nil]
    | cons t2 rest2 =>
      have hj : joinSp (t :: t2 :: rest2) = t ++ ' ' :: joinSp (t2 :: rest2) := rfl
      rw [hj] at hlen ⊢
      rw [scanTokF_step t (' ' :: joinSp (t2 :: rest2)) fuel
        (hsh t (List.mem_cons_self t _)) (Or.inr ⟨_, rfl⟩) hlen]
      congr 1
      cases fuel with
      | zero => simp at hlen
      | succ g =>
        simp only [scanTokF]
        rw [if_neg (by decide)]
        have hlg : (joinSp (t2 :: rest2)).length < g := by
          simp only [List.length_append, List.length_cons] at hlen
          omega
        rw [show isWordCharA ' ' = false from rfl]
        exact ih g (fun u hu => hsh u (List.mem_cons_of_mem t hu)) hlg

theorem mem_joinSp (c : Char) :
    ∀ ts : List (List Char), c ∈ joinSp ts → c = ' ' ∨ ∃ t ∈ ts, c ∈ t := by
  intro ts
  induction ts with
  | nil => intro h; simp [joinSp] at h
  | cons t rest ih =>
    cases rest with
    | nil =>
      intro h
      have hj : joinSp [t] = t := by simp [joinSp]
      rw [hj] at h
      exact Or.inr ⟨t, List.mem_cons_self t [], h⟩
    | cons t2 rest2 =>
      intro h
      rw [show joinSp (t :: t2 :: rest2) = t ++ ' ' :: joinSp (t2 :: rest2) from rfl] at h
      rcases List.mem_append.mp h with h | h
      · exact Or.inr ⟨t, List.mem_cons_self t _, h⟩
      · rcases List.mem_cons.mp h with rfl | h
        · exact Or.inl rfl
        · rcases ih h with h | ⟨u, hu, hcu⟩
          · exact Or.inl h
          · exact Or.inr ⟨u, List.mem_cons_of_mem t hu, hcu⟩

theorem map_id_of_mem {α : Type} (f : α → α) :
    ∀ l : List α, (∀ a ∈ l, f a = a) → l.map f = l := by
  intro l
  induction l with
  | nil => intro _; rfl
  | cons a l ih =>
    intro h
    rw [List.map_cons, h a (List.mem_cons_self a l),
      ih (fun b hb => h b (List.mem_cons_of_mem a hb))]

theorem filterMap_self_of {α : Type} (f : α → Option α) :
    ∀ l : List α, (∀ a ∈ l, f a = some a) → l.filterMap f = l := by
  intro l
  induction l with
  | nil => intro _; rfl
  | cons a l ih =>
    intro h
    rw [List.filterMap_cons, h a (List.mem_cons_self a l),
      ih (fun b hb => h b (List.mem_cons_of_mem a hb))]

/-! ### Claim C7 -/

/-- C7, counterexample.  Tokenization is not idempotent: one pass over
`big data analytics` yields the single phrase token `big data`
(via the phrase map), but re-tokenizing the text formed from that
token sequence yields `[big]` — the rejoined phrase no longer matches
any phrase key, splits into two words, and `data` falls to the
academic stopword filter. -/
theorem c7_tokenize_idempotent_counterexample :
    pyTokenize ("big data analytics").data = [("big data").data] ∧
    pyTokenize (joinSp (pyTokenize ("big data analytics").data)) = [("big").data] ∧
    [("big").data] ≠ [("big data").data] := by
  refine ⟨by decide, by decide, by decide⟩

/-- C7, amended.  Idempotence holds exactly on the single-word part of
the output language: for every token sequence whose tokens are simple
single words (lowercase letters, digits and inner hyphens — no
multi-word phrase token), already stopword-free, stem-stable, and whose
space-joined text triggers no phrase-alias substitution, re-tokenizing
the joined text yields the identical sequence.  Sequences containing a
multi-word token (or adjacent words forming a phrase key) are NOT fixed
points, as the counterexample shows. -/
theorem c7_tokenize_idempotent_simple (ts : List (List Char))
    (hts : ∀ t ∈ ts, simpleTok t = true)
    (hph : applyPhrases (joinSp ts) = joinSp ts) :
    pyTokenize (joinSp ts) = ts := by
  have hshape : ∀ t ∈ ts, shapeTok t = true := by
    intro t ht
    have h := hts t ht
    simp only [simpleTok, Bool.and_eq_true] at h
    exact h.1.1.1
  have hlower : (joinSp ts).map pyToLower = joinSp ts := by
    apply map_id_of_mem
    intro c hc
    rcases mem_joinSp c ts hc with rfl | ⟨t, ht, hct⟩
    · decide
    · exact simpleChar_toLower ((shapeTok_facts (hshape t ht)).2.1 c hct)
  unfold pyTokenize
  rw [hlower, hph]
  rw [show scanTok (joinSp ts) = ts from
    scanTokF_joinSp ts ((joinSp ts).length + 1) hshape (Nat.lt_succ_self _)]
  apply filterMap_self_of
  intro t ht
  have hs := hts t ht
  simp only [simpleTok, Bool.and_eq_true] at hs
  obtain ⟨⟨⟨hsh, hstop⟩, hacad⟩, hstem⟩ := hs
  rcases shapeTok_facts hsh with ⟨hlen2, hcls, hhead, -⟩
  have hrestore : restoreUnderscores t = t := by
    apply map_id_of_mem
    intro c hc
    rw [simpleChar_not_underscore (hcls c hc)]
    rfl
  have hstopM : t ∉ stopwords := by simpa using hstop
  have hacadM : t ∈ academicStopwords → t ∈ domainTerms := by
    have h : t ∉ academicStopwords ∨ t ∈ domainTerms := by simpa using hacad
    intro hmem
    rcases h with h | h
    · exact absurd hmem h
    · exact h
  have hdig : pyIsDigit t = false := by
    cases t with
    | nil => simp at hlen2
    | cons c cs =>
      have hcd : isDigitA c = false := simpleChar_not_digit_of_lower hhead
      simp [pyIsDigit, hcd]
  have hstemEq : stemApply t = t := by simpa using hstem
  have hlen3 : ¬(t.length < 2) := by omega
  simp [hrestore, hstopM, hdig, hstemEq, hlen3]
  exact hacadM

/-- C7, witness: the two-token sequence `[hotel, loyalty]` is simple
and alias-free, and re-tokenizing its joined text reproduces it. -/
theorem c7_tokenize_idempotent_simple_witness :
    (∀ t ∈ [("hotel").data, ("loyalty").data], simpleTok t = true) ∧
    applyPhrases (joinSp [("hotel").data, ("loyalty").data])
      = joinSp [("hotel").data, ("loyalty").data] ∧
    pyTokenize (joinSp [("hotel").data, ("loyalty").data])
      = [("hotel").data, ("loyalty").data] := by
  refine ⟨by decide, by decide, ?_⟩
  exact c7_tokenize_idempotent_simple _ (by decide) (by decide)

/-! ### Claim C9 -/

/-- A record whose single `future_research` excerpt repeats one long
word twice. -/
def c9paper : PyPaper := { future_research := some "improve improve" }

/-- C9, counterexample.  The claim requires a word occurring twice
inside a single excerpt but in no other excerpt NOT to enter the
keyword list.  The counters of lines 312–317 count occurrences with
multiplicity, so for the one-record corpus the word `improve`
(duplicated inside the one excerpt) reaches count 2 and the
Methodological Advancement gap keeps it. -/
theorem c9_distinct_excerpts_counterexample :
    ((identifyResearchGaps [c9paper]).filter (fun g => g.id == 1)).map Gap.keywords
      = [["improve"]] ∧
    (allFutureWords [c9paper]).count "improve".data = 2 := by
  refine ⟨by decide, by decide⟩

/-- C9, amended.  A word (of length > 4) enters the Methodological
Advancement keyword list only if its TOTAL occurrence count across all
`future_research` excerpts is at least 2 — two occurrences inside a
single excerpt suffice; the word moreover comes from the top 20 entries
of the counter, the keyword list holds at most 10 words, and
`source_count` is the number of records with truthy `future_research`.
The same holds for the Addressing Current Limitations gap over
`limitations` excerpts. -/
theorem c9_gap_keyword_counts (papers : List PyPaper) (g : Gap)
    (hg : g ∈ identifyResearchGaps papers) :
    (g.id = 1 →
      (∀ w ∈ g.keywords, 2 ≤ (allFutureWords papers).count w.data ∧
        w.data ∈ ((mostCommonL (allFutureWords papers)).take 20).map Prod.fst) ∧
      g.keywords.length ≤ 10 ∧
      g.source_count = papers.countP (fun p => truthyStr p.future_research)) ∧
    (g.id = 2 →
      (∀ w ∈ g.keywords, 2 ≤ (allLimitationWords papers).count w.data ∧
        w.data ∈ ((mostCommonL (allLimitationWords papers)).take 20).map Prod.fst) ∧
      g.keywords.length ≤ 10 ∧
      g.source_count = papers.countP (fun p => truthyStr p.limitations)) := by
  rcases mem_identifyResearchGaps papers g hg with rfl | rfl | rfl | rfl
  · refine ⟨fun _ => ⟨?_, ?_, rfl⟩, fun hid => by simp [futureGap] at hid⟩
    · intro w hw
      unfold futureGap at hw
      simp only [List.mem_map] at hw
      rcases hw with ⟨wd, hwd, rfl⟩
      have := themeGap_keyword_bound (allFutureWords papers) wd hwd
      exact this
    · unfold futureGap
      simp only [List.length_map]
      rw [List.length_take]
      omega
  · refine ⟨fun hid => by simp [limitationGap] at hid, fun _ => ⟨?_, ?_, rfl⟩⟩
    · intro w hw
      unfold limitationGap at hw
      simp only [List.mem_map] at hw
      rcases hw with ⟨wd, hwd, rfl⟩
      exact themeGap_keyword_bound (allLimitationWords papers) wd hwd
    · unfold limitationGap
      simp only [List.length_map]
      rw [List.length_take]
      omega
  · exact ⟨fun hid => by simp [highImpactGap] at hid,
      fun hid => by simp [highImpactGap] at hid⟩
  · exact ⟨fun hid => by simp [emergingGap] at hid,
      fun hid => by simp [emergingGap] at hid⟩

/-- C9, witness: the amended theorem applied to the one-record corpus
of `c9paper` and its Methodological Advancement gap. -/
theorem c9_gap_keyword_counts_witness :
    (∀ w ∈ (futureGap [c9paper]).keywords,
        2 ≤ (allFutureWords [c9paper]).count w.data ∧
        w.data ∈ ((mostCommonL (allFutureWords [c9paper])).take 20).map Prod.fst) ∧
    (futureGap [c9paper]).keywords.length ≤ 10 ∧
    (futureGap [c9paper]).source_count
      = [c9paper].countP (fun p => truthyStr p.future_research) :=
  (c9_gap_keyword_counts [c9paper] (futureGap [c9paper]) (by decide)).1 rfl

/-! ### Claim C8 -/

/-- C8, counterexample.  On the zero-record corpus (a corpus with no
future-research or limitations text and no technology-term
occurrences), `identify_research_gaps` does NOT return the empty list:
every fixed technology term has frequency `0 < 10`, so the Emerging
Technology Applications gap (id 4) is always emitted. -/
theorem c8_no_evidence_counterexample :
    identifyResearchGaps [] ≠ [] ∧
    (identifyResearchGaps []).map Gap.id = [4] ∧
    (identifyResearchGaps []).map Gap.keywords = [emergingTech] := by
  refine ⟨by decide, by decide, by decide⟩

/-- C8, amended.  For every corpus with no evidence — no truthy
`future_research` or `limitations` text and no keywords, which covers
both the zero-record corpus and a 10-record corpus of blank records —
`identify_research_gaps` returns exactly one gap: the Emerging
Technology Applications gap listing every fixed technology term, with
`source_count = 0`.  The empty list is never returned in this
situation (it would require every technology term to reach frequency
10).  No exception is possible; the embedding is total. -/
theorem c8_no_evidence_gap4_only (papers : List PyPaper)
    (h : ∀ p ∈ papers, truthyStr p.future_research = false ∧
        truthyStr p.limitations = false ∧ gapKwList p = []) :
    identifyResearchGaps papers = [emergingGap []] := by
  have hfw : allFutureWords papers = [] := by
    apply flatten_map_eq_nil
    intro p hp
    unfold futureWordsOf
    rw [(h p hp).1]
    rfl
  have hlw : allLimitationWords papers = [] := by
    apply flatten_map_eq_nil
    intro p hp
    unfold limitationWordsOf
    rw [(h p hp).2.1]
    rfl
  have hpairs : gapKwPairs papers = [] := by
    apply flatten_map_eq_nil
    intro p hp
    rw [(h p hp).2.2]
    rfl
  have hfreq : ∀ t, keywordFreqGap papers t = 0 := by
    intro t
    unfold keywordFreqGap
    rw [hpairs]
    rfl
  have hcf : commonFuture papers = [] := by
    unfold commonFuture
    rw [hfw]
    rfl
  have hcl : commonLimitations papers = [] := by
    unfold commonLimitations
    rw [hlw]
    rfl
  have hhi : highImpactLowFreq papers = [] := by
    unfold highImpactLowFreq
    rw [hpairs]
    rfl
  have htech : techGaps papers = emergingTech := by
    unfold techGaps
    apply List.filter_eq_self.mpr
    intro t _
    rw [hfreq]
    rfl
  have hgap : emergingGap papers = emergingGap [] := by
    unfold emergingGap
    rw [htech]
    have hmap : emergingTech.map (keywordFreqGap papers)
        = emergingTech.map (fun _ => 0) :=
      List.map_congr_left (fun t _ => hfreq t)
    rw [hmap]
    decide
  unfold identifyResearchGaps
  rw [hcf, hcl, hhi, htech, hgap]
  rfl

/-- C8, witness: a two-record corpus of blank records yields exactly
the Emerging Technology gap. -/
theorem c8_no_evidence_gap4_only_witness :
    identifyResearchGaps
      [ { title := some "a" }, { title := some "b" } ] = [emergingGap []] :=
  c8_no_evidence_gap4_only _ (by decide)

/-! ### Claim C1 -/

/-- The three records of the C1 scenario: years `[2023, 2023, 2025]`
with keyword sets `[{ai,tourism}, {ai,satisfaction}, {vr,tourism}]`. -/
def c1papers : List PyPaper :=
  [ { year := some 2023, all_keywords := some ["ai", "tourism"] },
    { year := some 2023, all_keywords := some ["ai", "satisfaction"] },
    { year := some 2025, all_keywords := some ["vr", "tourism"] } ]

/-- C1, counterexample.  The claim asserts that 2025 is the only recent
year and 2023 the only earlier year, that `vr` is excluded from the
returned burst list, and that `tourism` has `recent_freq = 0` and
`earlier_freq = 2`.  In the code `years[-2:]` makes BOTH distinct years
recent, so the recent window is `[2023, 2025]`, the entry for `vr` is
returned, and `tourism` is returned with `recent_freq = 2` and
`earlier_freq = 1`. -/
theorem c1_burst_scenario_counterexample :
    recentYears (burstYears c1papers) ≠ [2025] ∧
    ((detectBurstWords c1papers).map BurstEntry.keyword).contains "vr" = true ∧
    ((detectBurstWords c1papers).filter (fun e => e.keyword == "tourism")).map
      (fun e => (e.recent_freq, e.earlier_freq)) = [(2, 1)] := by
  refine ⟨by decide, by decide, by decide⟩

/-- C1, amended.  On the scenario records the window partition makes
both 2023 and 2025 recent (`years[-2:]` of a two-element list) and 2023
the earlier window; `vr` is new with `recent_freq = 1 < 3`, reported
growth value the raw count `1`, and is INCLUDED (1 > 0.5); `tourism`
gets `earlier_freq = 1`, `recent_freq = 2`, `growth_rate = 1`, also
included; the returned list is exactly `[tourism, vr]` (equal growth,
tie broken by descending `recent_freq`). -/
theorem c1_burst_scenario_amended :
    recentYears (burstYears c1papers) = [2023, 2025] ∧
    earlierYears (burstYears c1papers) = [2023] ∧
    detectBurstWords c1papers =
      [ ⟨"tourism", 2, 1, 1, false, "rising"⟩,
        ⟨"vr", 1, 0, 1, true, "rising"⟩ ] := by
  refine ⟨by decide, by decide, by decide⟩

/-! ### TopicClusterer: `lda_topic_modeling`
(`modules/analyzer.py`, lines 141–208).

The greedy clustering loop is embedded parametrically: `relatedOf seed`
stands for `cooccurrence[seed].most_common(20)` key order and `seeds`
for `sorted(valid_words, key=lambda w: -word_freq[w])`.  Both orders
depend on Python dict/set iteration order (unspecified for equal
counts), so the claimed invariants are proved for EVERY choice of these
parameters, which covers every actual invocation on every record
collection. -/

/-- The inner loop of lines 193–195: extend `acc` with co-occurring
words not yet used, while fewer than 15 members. -/
def growTopic (used : List String) : List String → List String → List String
  | [], acc => acc
  | w :: ws, acc =>
    if !(used.contains w) && acc.length < 15 then growTopic used ws (acc ++ [w])
    else growTopic used ws acc

/-- The seed loop of lines 183–206, carrying the `used_words` set and
the accumulated topic member lists. -/
def ldaLoop (relatedOf : String → List String) (nTopics : Nat) :
    List String → List String → List (List String) → List (List String)
  | [], _, topics => topics
  | seed :: rest, used, topics =>
    if used.contains seed then ldaLoop relatedOf nTopics rest used topics
    else if nTopics ≤ topics.length then topics
    else
      let tw := growTopic used (relatedOf seed) [seed]
      if 3 ≤ tw.length then
        ldaLoop relatedOf nTopics rest (used ++ tw) (topics ++ [tw])
      else ldaLoop relatedOf nTopics rest used topics

/-- The member lists of the topics produced by one clusterer
invocation. -/
def ldaTopics (relatedOf : String → List String) (nTopics : Nat)
    (seeds : List String) : List (List String) :=
  ldaLoop relatedOf nTopics seeds [] []

theorem growTopic_ext (used : List String) :
    ∀ (ws acc : List String), ∃ ext, growTopic used ws acc = acc ++ ext ∧
      ∀ w ∈ ext, w ∈ ws ∧ w ∉ used := by
  intro ws
  induction ws with
  | nil => intro acc; exact ⟨[], by simp [growTopic]⟩
  | cons w ws ih =>
    intro acc
    by_cases hc : (!(used.contains w) && acc.length < 15) = true
    · rcases ih (acc ++ [w]) with ⟨ext, heq, hmem⟩
      refine ⟨w :: ext, ?_, ?_⟩
      · rw [growTopic, if_pos hc, heq]
        simp
      · intro v hv
        rcases List.mem_cons.mp hv with rfl | hv
        · rcases Bool.and_eq_true_iff.mp hc with ⟨h1, -⟩
          rw [Bool.not_eq_true'] at h1
          refine ⟨List.mem_cons_self _ _, ?_⟩
          intro hvu
          have h2 : List.contains used v = true := List.elem_iff.mpr hvu
          rw [h1] at h2
          cases h2
        · rcases hmem v hv with ⟨h1, h2⟩
          exact ⟨List.mem_cons_of_mem _ h1, h2⟩
    · rcases ih acc with ⟨ext, heq, hmem⟩
      refine ⟨ext, by rw [growTopic, if_neg hc]; exact heq, ?_⟩
      intro v hv
      rcases hmem v hv with ⟨h1, h2⟩
      exact ⟨List.mem_cons_of_mem _ h1, h2⟩

theorem growTopic_length (used : List String) :
    ∀ (ws acc : List String), acc.length ≤ 15 →
      (growTopic used ws acc).length ≤ 15 := by
  intro ws
  induction ws with
  | nil => intro acc h; simpa [growTopic] using h
  | cons w ws ih =>
    intro acc h
    by_cases hc : (!(used.contains w) && acc.length < 15) = true
    · rw [growTopic, if_pos hc]
      rcases Bool.and_eq_true_iff.mp hc with ⟨-, h2⟩
      have : acc.length < 15 := by simpa using h2
      exact ih (acc ++ [w]) (by simp; omega)
    · rw [growTopic, if_neg hc]
      exact ih acc h

/-- The per-topic property delivered by one loop run: size within
bounds, the seed first, the rest taken from the co-occurrence list of
the seed. -/
def topicOk (relatedOf : String → List String) (seeds : List String)
    (t : List String) : Prop :=
  3 ≤ t.length ∧ t.length ≤ 15 ∧
    ∃ s ∈ seeds, t.head? = some s ∧ ∀ w ∈ t.tail, w ∈ relatedOf s

theorem ldaLoop_invariant (relatedOf : String → List String) (n : Nat) :
    ∀ (seeds used : List String) (topics : List (List String)),
      (∀ t ∈ topics, ∀ w ∈ t, w ∈ used) →
      topics.Pairwise (fun t u => ∀ w ∈ t, w ∉ u) →
      (ldaLoop relatedOf n seeds used topics).Pairwise (fun t u => ∀ w ∈ t, w ∉ u) ∧
      ∀ t ∈ ldaLoop relatedOf n seeds used topics,
        t ∈ topics ∨ topicOk relatedOf seeds t := by
  intro seeds
  induction seeds with
  | nil =>
    intro used topics hused hpw
    rw [ldaLoop]
    exact ⟨hpw, fun t ht => Or.inl ht⟩
  | cons s rest ih =>
    intro used topics hused hpw
    rw [ldaLoop]
    by_cases hs : used.contains s = true
    · rw [if_pos hs]
      rcases ih used topics hused hpw with ⟨h1, h2⟩
      refine ⟨h1, fun t ht => ?_⟩
      rcases h2 t ht with h | h
      · exact Or.inl h
      · rcases h with ⟨ha, hb, s', hs', hrest⟩
        exact Or.inr ⟨ha, hb, s', List.mem_cons_of_mem _ hs', hrest⟩
    · rw [if_neg hs]
      by_cases hn : n ≤ topics.length
      · rw [if_pos hn]
        exact ⟨hpw, fun t ht => Or.inl ht⟩
      · rw [if_neg hn]
        rcases growTopic_ext used (relatedOf s) [s] with ⟨ext, heq, hext⟩
        have hsused : s ∉ used := fun hmem => hs (List.elem_iff.mpr hmem)
        have htw_used : ∀ w ∈ growTopic used (relatedOf s) [s], w ∉ used := by
          rw [heq]
          intro w hw
          rcases List.mem_append.mp hw with hw | hw
          · rcases List.mem_singleton.mp hw with rfl
            exact hsused
          · exact (hext w hw).2
        by_cases h3 : 3 ≤ (growTopic used (relatedOf s) [s]).length
        · rw [if_pos h3]
          have hused' : ∀ t ∈ topics ++ [growTopic used (relatedOf s) [s]],
              ∀ w ∈ t, w ∈ used ++ growTopic used (relatedOf s) [s] := by
            intro t ht w hw
            rcases List.mem_append.mp ht with ht | ht
            · exact List.mem_append_left _ (hused t ht w hw)
            · rcases List.mem_singleton.mp ht with rfl
              exact List.mem_append_right _ hw
          have hpw' : (topics ++ [growTopic used (relatedOf s) [s]]).Pairwise
              (fun t u => ∀ w ∈ t, w ∉ u) := by
            rw [List.pairwise_append]
            refine ⟨hpw, by simp, ?_⟩
            intro t ht u hu w hwt
            rcases List.mem_singleton.mp hu with rfl
            intro hwu
            exact htw_used w hwu (hused t ht w hwt)
          rcases ih (used ++ growTopic used (relatedOf s) [s])
            (topics ++ [growTopic used (relatedOf s) [s]]) hused' hpw' with ⟨h1, h2⟩
          refine ⟨h1, fun t ht => ?_⟩
          rcases h2 t ht with h | h
          · rcases List.mem_append.mp h with h | h
            · exact Or.inl h
            · rcases List.mem_singleton.mp h with rfl
              refine Or.inr ⟨h3, ?_, s, List.mem_cons_self _ _, ?_, ?_⟩
              · exact growTopic_length used (relatedOf s) [s] (by simp)
              · rw [heq]; rfl
              · rw [heq]
                intro w hw
                simp only [List.cons_append, List.tail_cons] at hw
                exact (hext w hw).1
          · rcases h with ⟨ha, hb, s', hs', hrest⟩
            exact Or.inr ⟨ha, hb, s', List.mem_cons_of_mem _ hs', hrest⟩
        · rw [if_neg h3]
          rcases ih used topics hused hpw with ⟨h1, h2⟩
          refine ⟨h1, fun t ht => ?_⟩
          rcases h2 t ht with h | h
          · exact Or.inl h
          · rcases h with ⟨ha, hb, s', hs', hrest⟩
            exact Or.inr ⟨ha, hb, s', List.mem_cons_of_mem _ hs', hrest⟩

/-! ### Claim C6 -/

/-- C6: across one clusterer invocation — for every co-occurrence
ranking `relatedOf`, every topic budget and every seed order, hence for
every record collection — the produced member lists are pairwise
disjoint, and every topic has between 3 and 15 members with its seed
keyword first (the remaining members drawn from the co-occurrence list
of that seed). -/
theorem c6_topics_disjoint_sized (relatedOf : String → List String)
    (nTopics : Nat) (seeds : List String) :
    (ldaTopics relatedOf nTopics seeds).Pairwise (fun t u => ∀ w ∈ t, w ∉ u) ∧
    ∀ t ∈ ldaTopics relatedOf nTopics seeds, topicOk relatedOf seeds t := by
  rcases ldaLoop_invariant relatedOf nTopics seeds [] []
    (by intro t ht; simp at ht) (by simp) with ⟨h1, h2⟩
  refine ⟨h1, fun t ht => ?_⟩
  rcases h2 t ht with h | h
  · simp at h
  · exact h

/-- C6, witness: with seeds `[ai, foo]` and `vr, ml` co-occurring with
`ai`, the single produced topic is `[ai, vr, ml]`; the theorem yields
its size bounds and seed-first shape. -/
theorem c6_topics_disjoint_sized_witness :
    ldaTopics (fun s => if s = "ai" then ["vr", "ml"] else []) 8 ["ai", "foo"]
      = [["ai", "vr", "ml"]] ∧
    topicOk (fun s => if s = "ai" then ["vr", "ml"] else []) ["ai", "foo"]
      ["ai", "vr", "ml"] := by
  refine ⟨by decide, ?_⟩
  exact (c6_topics_disjoint_sized (fun s => if s = "ai" then ["vr", "ml"] else [])
    8 ["ai", "foo"]).2 ["ai", "vr", "ml"] (by decide)

/-! ### CooccurrenceGraphBuilder: `build_cooccurrence_network`
(`modules/analyzer.py`, lines 237–292). -/

/-- Python `<` on strings: lexicographic comparison of code points. -/
def pyStrLtL : List Char → List Char → Bool
  | [], [] => false
  | [], _ :: _ => true
  | _ :: _, [] => false
  | c :: cs, d :: ds =>
    if c.toNat < d.toNat then true
    else if d.toNat < c.toNat then false
    else pyStrLtL cs ds

/-- Python `<=` on strings. -/
def pyStrLe (a b : String) : Bool := !(pyStrLtL b.data a.data)

/-- The keyword set one record contributes at lines 252–256:
`all_keywords`, else lowercased `keywords` — the same chain as in
`analyze_keywords_by_year`, hence reused. -/
def coKeywordSet (p : PyPaper) : List String := yearKeywordSet p

/-- A record's keyword set restricted to the node set
(`keywords & set(top_keywords)`, line 259). -/
def restrictedKw (tops : List String) (p : PyPaper) : List String :=
  (coKeywordSet p).filter (fun kw => tops.contains kw)

/-- Number of records whose restricted keyword set contains both `a`
and `b`: the co-occurrence counter value of the pair. -/
def pairWeight (papers : List PyPaper) (tops : List String) (a b : String) : Nat :=
  papers.countP (fun p =>
    (restrictedKw tops p).contains a && (restrictedKw tops p).contains b)

structure CoEdge where
  source : String
  target : String
  weight : Nat
deriving DecidableEq

structure CoNode where
  id : String
  label : String
  size : Nat
deriving DecidableEq

structure CoGraph where
  nodes : List CoNode
  edges : List CoEdge
deriving DecidableEq

/-- All unordered pairs of a list, each once. -/
def allPairs : List String → List (String × String)
  | [] => []
  | x :: xs => xs.map (fun y => (x, y)) ++ allPairs xs

/-- The edge for one pair: endpoints in `tuple(sorted([kw1, kw2]))`
order, weight the pair counter value. -/
def mkCoEdgePair (papers : List PyPaper) (tops : List String)
    (pr : String × String) : CoEdge :=
  let s := if pyStrLe pr.1 pr.2 then pr.1 else pr.2
  let t := if pyStrLe pr.1 pr.2 then pr.2 else pr.1
  ⟨s, t, pairWeight papers tops s t⟩

/-- Sort key of line 287: descending weight. -/
def coEdgeLe (a b : CoEdge) : Bool := decide (b.weight ≤ a.weight)

/-- The edge list: materialize every pair with counter `>= 2`, sort by
descending weight, truncate to 200.  (The Python counter holds only
pairs that actually co-occur; pairs with counter `0` or `1` are
filtered out identically here.) -/
def buildCooccurrenceEdges (papers : List PyPaper) (tops : List String) : List CoEdge :=
  (insSort coEdgeLe
    (((allPairs (firstOccs tops)).map (mkCoEdgePair papers tops)).filter
      (fun e => 2 ≤ e.weight))).take 200

/-- `top_n` most frequent keywords: the keys of the sorted aggregate
table, truncated.  `Counter.most_common` is a stable descending sort
over insertion order; first-occurrence order stands in for the
unspecified set-iteration order inside each record. -/
def topKeywords (papers : List PyPaper) (n : Nat) : List String :=
  (insSort (fun a b =>
      decide (analyzeKeywordsCount papers b ≤ analyzeKeywordsCount papers a))
    (firstOccs (papers.map aggKeywordSet).flatten)).take n

/-- `build_cooccurrence_network(papers)` with default `top_n = 50`.
A node's size is its aggregate frequency (`keyword_freq.get(kw, 1)`;
the default `1` is unreachable since every node is a key of the
table). -/
def buildCooccurrenceNetwork (papers : List PyPaper) : CoGraph :=
  let tops := topKeywords papers 50
  { nodes := tops.map (fun kw => ⟨kw, kw, analyzeKeywordsCount papers kw⟩),
    edges := buildCooccurrenceEdges papers tops }

theorem buildCooccurrenceEdges_spec (papers : List PyPaper) (tops : List String) :
    (∀ e ∈ buildCooccurrenceEdges papers tops,
        e.weight = pairWeight papers tops e.source e.target ∧ 2 ≤ e.weight) ∧
    (buildCooccurrenceEdges papers tops).Pairwise (fun a b => b.weight ≤ a.weight) ∧
    (buildCooccurrenceEdges papers tops).length ≤ 200 := by
  refine ⟨?_, ?_, ?_⟩
  · intro e he
    have he2 := (List.take_sublist _ _).mem he
    rw [mem_insSort] at he2
    rcases List.mem_filter.mp he2 with ⟨he3, hw⟩
    have hw2 : 2 ≤ e.weight := by simpa using hw
    rcases List.mem_map.mp he3 with ⟨pr, hpr, rfl⟩
    refine ⟨?_, hw2⟩
    unfold mkCoEdgePair
    rfl
  · refine List.Pairwise.sublist (List.take_sublist _ _) ?_
    refine List.Pairwise.imp ?_
      (pairwise_insSort coEdgeLe ?_ ?_ _)
    · intro a b hle
      exact of_decide_eq_true hle
    · intro a b
      unfold coEdgeLe
      rcases Nat.le_total b.weight a.weight with h | h
      · exact Or.inl (decide_eq_true h)
      · exact Or.inr (decide_eq_true h)
    · intro a b c hab hbc
      unfold coEdgeLe at *
      exact decide_eq_true (Nat.le_trans (of_decide_eq_true hbc) (of_decide_eq_true hab))
  · exact List.length_take_le _ _

/-! ### Claim C5 -/

/-- C5: in the graph returned by `build_cooccurrence_network`, every
edge weight equals the exact number of records whose keyword set,
restricted to the top-50 node set, contains both endpoints; no edge of
weight below the minimum weight 2 is present; the edge list is sorted
in descending weight order and holds at most 200 edges. -/
theorem c5_cooccurrence_network_edges (papers : List PyPaper) :
    (∀ e ∈ (buildCooccurrenceNetwork papers).edges,
        e.weight = pairWeight papers (topKeywords papers 50) e.source e.target ∧
          2 ≤ e.weight) ∧
    (buildCooccurrenceNetwork papers).edges.Pairwise (fun a b => b.weight ≤ a.weight) ∧
    (buildCooccurrenceNetwork papers).edges.length ≤ 200 :=
  buildCooccurrenceEdges_spec papers (topKeywords papers 50)

/-- C5, witness: two records sharing keywords `ai` and `vr` produce the
single edge `ai — vr` of weight 2, whose properties follow from the
theorem. -/
theorem c5_cooccurrence_network_edges_witness :
    (⟨"ai", "vr", 2⟩ : CoEdge) ∈ (buildCooccurrenceNetwork
        [ { all_keywords := some ["ai", "vr"] },
          { all_keywords := some ["ai", "vr"] } ]).edges ∧
    (2 : Nat) ≤ (CoEdge.mk "ai" "vr" 2).weight ∧
    (CoEdge.mk "ai" "vr" 2).weight
      = pairWeight
          [ { all_keywords := some ["ai", "vr"] },
            { all_keywords := some ["ai", "vr"] } ]
          (topKeywords
            [ { all_keywords := some ["ai", "vr"] },
              { all_keywords := some ["ai", "vr"] } ] 50) "ai" "vr" := by
  have hmem : (⟨"ai", "vr", 2⟩ : CoEdge) ∈ (buildCooccurrenceNetwork
      [ { all_keywords := some ["ai", "vr"] },
        { all_keywords := some ["ai", "vr"] } ]).edges := by decide
  have h := (c5_cooccurrence_network_edges
    [ { all_keywords := some ["ai", "vr"] },
      { all_keywords := some ["ai", "vr"] } ]).1 _ hmem
  exact ⟨hmem, h.2, h.1⟩

/-! ### Claim C4 -/

theorem sum_year_indicator (a : Int) :
    ∀ ys : List Int, ys.Nodup → a ∈ ys →
      (ys.map (fun y => if a = y then (1 : Nat) else 0)).sum = 1 := by
  intro ys
  induction ys with
  | nil => intro _ h; simp at h
  | cons y ys ih =>
    intro hnd hmem
    rcases List.nodup_cons.mp hnd with ⟨hy, hnd2⟩
    by_cases hay : a = y
    · subst hay
      have hz : (ys.map (fun z => if a = z then (1 : Nat) else 0)).sum = 0 := by
        apply List.sum_eq_zero_iff.mpr
        intro x hx
        rcases List.mem_map.mp hx with ⟨z, hz2, rfl⟩
        rw [if_neg]
        rintro rfl
        exact hy hz2
      rw [List.map_cons, List.sum_cons, if_pos rfl, hz]
    · have ha2 : a ∈ ys := by
        rcases List.mem_cons.mp hmem with h | h
        · exact absurd h hay
        · exact h
      rw [List.map_cons, List.sum_cons, if_neg hay, ih hnd2 ha2]

theorem sum_countP_years (papers : List PyPaper) (Q : PyPaper → Bool)
    (ys : List Int) (hnd : ys.Nodup)
    (hcov : ∀ p ∈ papers, ∀ y, truthyYear p.year = some y → y ∈ ys) :
    (ys.map (fun y =>
        papers.countP (fun p => truthyYear p.year == some y && Q p))).sum
      = papers.countP (fun p => (truthyYear p.year).isSome && Q p) := by
  induction papers with
  | nil => simp
  | cons p rest ih =>
    have hcov' : ∀ q ∈ rest, ∀ y, truthyYear q.year = some y → y ∈ ys := by
      intro q hq y hy
      exact hcov q (List.mem_cons_of_mem p hq) y hy
    simp only [List.countP_cons]
    have hsplit :
        (ys.map (fun y =>
            rest.countP (fun q => truthyYear q.year == some y && Q q) +
              (if (truthyYear p.year == some y && Q p) = true then 1 else 0))).sum
          = (ys.map (fun y =>
              rest.countP (fun q => truthyYear q.year == some y && Q q))).sum +
            (ys.map (fun y =>
              if (truthyYear p.year == some y && Q p) = true then 1 else 0)).sum :=
      List.sum_map_add ..
    rw [hsplit, ih hcov']
    congr 1
    cases hpy : truthyYear p.year with
    | none =>
      rw [List.sum_eq_zero_iff.mpr (by
        intro x hx
        rcases List.mem_map.mp hx with ⟨y, hy, rfl⟩
        rfl)]
      rfl
    | some a =>
      cases hq : Q p with
      | false =>
        simp only [Bool.and_false]
        simp
      | true =>
        simp only [Bool.and_true, Option.isSome_some, Bool.true_and, if_pos rfl]
        have ha : a ∈ ys := hcov p (List.mem_cons_self p rest) a hpy
        have heq : ∀ y : Int, ((some a == some y) = true) ↔ a = y := by
          intro y
          simp
        calc (ys.map (fun y => if (some a == some y) = true then (1 : Nat) else 0)).sum
            = (ys.map (fun y => if a = y then (1 : Nat) else 0)).sum := by
              congr 1
              apply List.map_congr_left
              intro y _
              by_cases h : a = y
              · rw [if_pos ((heq y).mpr h), if_pos h]
              · rw [if_neg (fun hh => h ((heq y).mp hh)), if_neg h]
          _ = 1 := sum_year_indicator a ys hnd ha

theorem countP_split (papers : List PyPaper) (f g : PyPaper → Bool) :
    papers.countP f
      = (papers.filter g).countP f + (papers.filter (fun p => !g p)).countP f := by
  induction papers with
  | nil => simp
  | cons p rest ih =>
    cases hg : g p <;>
      simp [List.countP_cons, List.filter_cons, hg, ih] <;> omega

/-- Records whose `year` is truthy (the subset entering the per-year
tables). -/
def knownYearPapers (papers : List PyPaper) : List PyPaper :=
  papers.filter (fun p => (truthyYear p.year).isSome)

/-- A record carrying only `keywords_normalized`: `analyze_keywords`
counts it (the `elif keywords_normalized` branch at line 36) while
`analyze_keywords_by_year` ignores it (no such branch at lines 59–62). -/
def c4paper : PyPaper := { year := some 2020, keywords_normalized := some ["x"] }

/-- C4, counterexample.  For the one-record corpus `[c4paper]` the sum
of the per-year frequencies of keyword `x` is `0`, but its frequency in
the aggregate table over the known-year subset is `1`: the claimed
equality fails because the two functions use different keyword-source
fallback chains. -/
theorem c4_yearly_sum_counterexample :
    ((knownYears [c4paper]).map (fun y => analyzeByYearCount [c4paper] y "x")).sum = 0 ∧
    analyzeKeywordsCount (knownYearPapers [c4paper]) "x" = 1 := by
  constructor
  · decide
  · decide

/-- C4, amended.  The equality holds for every corpus in which no
known-year record has a truthy `keywords_normalized` without a truthy
`all_keywords` (for such records the two keyword-source chains agree;
every record produced by the TextProcessor satisfies this since its
`all_keywords` is a superset of `keywords_normalized`): the sum over
all years of a keyword's per-year frequency equals its aggregate
frequency over the known-year subset; moreover the aggregate count
splits as known-year plus unknown-year contributions, and unknown-year
records contribute to no per-year table. -/
theorem c4_yearly_sum_eq_aggregate (papers : List PyPaper) (kw : String)
    (h : ∀ p ∈ papers, (truthyYear p.year).isSome = true →
        truthyList p.all_keywords = false → truthyList p.keywords_normalized = false) :
    ((knownYears papers).map (fun y => analyzeByYearCount papers y kw)).sum
      = analyzeKeywordsCount (knownYearPapers papers) kw ∧
    analyzeKeywordsCount papers kw
      = analyzeKeywordsCount (knownYearPapers papers) kw
        + analyzeKeywordsCount (papers.filter (fun p => !(truthyYear p.year).isSome)) kw ∧
    (∀ y : Int, analyzeByYearCount papers y kw
      = analyzeByYearCount (knownYearPapers papers) y kw) := by
  refine ⟨?_, ?_, ?_⟩
  · unfold analyzeByYearCount
    rw [sum_countP_years papers (fun p => (yearKeywordSet p).contains kw)
      (knownYears papers) (nodup_firstOccs _) ?_]
    · unfold analyzeKeywordsCount knownYearPapers
      rw [List.countP_filter]
      apply List.countP_congr
      intro p hp
      cases hy : (truthyYear p.year).isSome with
      | false => simp [hy]
      | true =>
        simp only [hy, Bool.and_true, Bool.true_and]
        have hsets : yearKeywordSet p = aggKeywordSet p := by
          unfold yearKeywordSet aggKeywordSet
          cases hak : truthyList p.all_keywords with
          | true => simp [hak]
          | false =>
            have hn := h p hp hy hak
            simp [hak, hn]
        rw [hsets]
    · intro p hp y hy
      rw [knownYears, mem_firstOccs]
      exact List.mem_filterMap.mpr ⟨p, hp, hy⟩
  · unfold analyzeKeywordsCount knownYearPapers
    exact countP_split papers _ _
  · intro y
    unfold analyzeByYearCount knownYearPapers
    rw [List.countP_filter]
    apply List.countP_congr
    intro p hp
    cases hpy : truthyYear p.year with
    | none => simp [hpy]
    | some a => simp [hpy]

/-- C4, witness: a three-record corpus (two known years, one record
with no year) for which the per-year sums, the aggregate split and the
per-year restriction all hold for keyword `ai`. -/
theorem c4_yearly_sum_eq_aggregate_witness :
    ((knownYears
        [ { year := some 2020, all_keywords := some ["ai"] },
          { year := some 2021, all_keywords := some ["ai", "vr"] },
          { year := none, all_keywords := some ["ai"] } ]).map
      (fun y => analyzeByYearCount
        [ { year := some 2020, all_keywords := some ["ai"] },
          { year := some 2021, all_keywords := some ["ai", "vr"] },
          { year := none, all_keywords := some ["ai"] } ] y "ai")).sum
      = analyzeKeywordsCount (knownYearPapers
        [ { year := some 2020, all_keywords := some ["ai"] },
          { year := some 2021, all_keywords := some ["ai", "vr"] },
          { year := none, all_keywords := some ["ai"] } ]) "ai" :=
  (c4_yearly_sum_eq_aggregate _ "ai" (by decide)).1

/-! ### Claim C3 -/

/-- C3: with fewer than two distinct (truthy) years in the yearly
frequency table, `detect_burst_words` returns the empty list; the early
return at line 90–92 guards every later division, so no error is
possible (the embedding is total). -/
theorem c3_burst_few_years_empty (papers : List PyPaper)
    (h : (knownYears papers).length < 2) :
    detectBurstWords papers = [] := by
  have hlen : (burstYears papers).length < 2 := by
    unfold burstYears
    rw [length_insSort]
    exact h
  unfold detectBurstWords
  simp [hlen]

/-- C3, witness: a corpus whose records share the single year 2024
(plus one record with no year at all) yields the empty burst list. -/
theorem c3_burst_few_years_empty_witness :
    detectBurstWords
      [ { year := some 2024, all_keywords := some ["ai"] },
        { year := some 2024, all_keywords := some ["vr"] },
        { year := none, all_keywords := some ["ml"] } ] = [] :=
  c3_burst_few_years_empty _ (by decide)

end SsciTourism
